import Mathlib

/-!
# DatAss: the weight-tracker computations of `src/App.js`

A shallow embedding of the three computations of the dashboard component:

* `calculateTDEEFromData` (the expenditure estimator, `App.js` lines 5-42),
* the three phase loops filling `allProjections` (lines 101-182),
* `finalWeek` / `completeWeeklyData` (the weekly merge, lines 184-205),

together with the built-in weigh-in table `rawData` and its week
normalisation `calculateWeekNumber` (lines 48-95).

## Number models

JavaScript numbers are IEEE 754 binary64 values.  Two models are used.

* The exact model (the definitions directly in `DatAss`): numbers are rationals
  `ℚ` and `+ - * /` are the field operations.  It is used for the properties
  that concern the structure of the computation and for the evaluations on the
  built-in table.
* The binary64 model (the definitions in `DatAss.Binary64`): the same code with
  the rounding `Binary64.fl` (to the nearest binary64 value, ties to the even
  significand) applied to the result of every `+ - * /`.  It is used for the
  properties that depend on that rounding: the sign of the estimated deficit,
  the relation between `tdee` and `dailyDeficit`, the window chosen by the
  estimator, the cases in which the estimator returns `null`, and the
  termination of the phase loops.

In both models `Math.round x` is `⌊x + 1/2⌋` (halves go up), `Math.ceil` is
`⌈x⌉`, `Math.abs` is `|x|`, comparisons are exact, and values the source rounds
to an integer are kept in `ℤ`.

`while` and `for` loops are run with an explicit iteration budget (`whileLoop`):
the result is `none` when the budget is exhausted before the loop condition
turns false, so that termination is a theorem and not an assumption.

The `date` strings of projection points and weekly rows are display-only and
are not modelled.  A weigh-in date `'M/D'` is kept as its two numbers, and the
difference of two dates is a whole number of days (local midnights with no
clock change in between).
-/

namespace DatAss

/-! ## JavaScript primitives -/

/-- The function `Math.round`: the nearest integer, a half rounded towards `+∞`. -/
def mathRound (x : ℚ) : ℤ := ⌊x + 1 / 2⌋

/-- The function `Math.ceil`. -/
def mathCeil (x : ℚ) : ℤ := ⌈x⌉

/-- A `while (cond) { body }` loop over a state `σ`, run with an iteration
budget: `none` when the condition still holds after `fuel` iterations. -/
def whileLoop {σ : Type} (cond : σ → Bool) (body : σ → σ) : ℕ → σ → Option σ
  | 0, s => if cond s then none else some s
  | fuel + 1, s => if cond s then whileLoop cond body fuel (body s) else some s

/-! ## Data model -/

/-- An element of `weightData` / `actualData`: the fields the computations read. -/
structure Observation where
  weekNumber : ℚ
  weight : ℚ
  deriving DecidableEq

/-- The object returned by `calculateTDEEFromData`. -/
structure TdeeEstimate where
  tdee : ℤ
  dailyDeficit : ℤ
  weeklyLossRate : ℚ
  weeksAnalyzed : ℚ
  deriving DecidableEq

/-- An element of `rawData`: the date `'M/D'` as month and day, and the weight. -/
structure RawEntry where
  month : ℕ
  day : ℕ
  weight : ℚ
  deriving DecidableEq

/-- An element of `allProjections` (without its display-only `date`). -/
structure ProjectionPoint where
  weekNumber : ℚ
  weight : ℚ
  phase : ℕ
  tdee : ℤ
  dailyCalories : ℤ
  deficit : ℤ
  weeklyLoss : ℚ
  deriving DecidableEq

/-- The variables the three phase loops share: `weight`, `weekNumber` and the
array `allProjections` they push to. -/
structure ProjState where
  weight : ℚ
  weekNumber : ℤ
  allProjections : List ProjectionPoint
  deriving DecidableEq

/-- An element of `completeWeeklyData` (without its display-only `date`). -/
structure WeeklyRow where
  weekNumber : ℕ
  weight : Option ℚ
  projected : Option ℚ
  deriving DecidableEq

/-! ## The estimator (`App.js` lines 5-42) -/

/-- The backward scan of `calculateTDEEFromData` (lines 13-20): starting from
`weightData[0]`, the scan from the last index down to `0` replaces it by the
first element met with `weekNumber <= targetWeek`, and stops there. -/
def findEarlierPoint (weightData : List Observation) (targetWeek : ℚ)
    (first : Observation) : Observation :=
  (weightData.reverse.find? (fun p => decide (p.weekNumber ≤ targetWeek))).getD first

/-- The object literal returned by `calculateTDEEFromData` once `weeksDiff > 0`
(lines 28-41), from the latest and the earlier point. -/
def estimateFrom (latestPoint earlierPoint : Observation) (dailyCalories : ℚ) :
    TdeeEstimate :=
  let weeksDiff := latestPoint.weekNumber - earlierPoint.weekNumber
  let weightLoss := earlierPoint.weight - latestPoint.weight
  let totalCalorieDeficit := weightLoss * 3500
  let days := weeksDiff * 7
  let dailyDeficit := totalCalorieDeficit / days
  let tdee := dailyCalories + dailyDeficit
  { tdee := mathRound tdee
    dailyDeficit := mathRound dailyDeficit
    weeklyLossRate := (mathRound (weightLoss / weeksDiff * 10) : ℚ) / 10
    weeksAnalyzed := (mathRound (weeksDiff * 10) : ℚ) / 10 }

/-- The function `calculateTDEEFromData`; `none` is JavaScript `null`. -/
def calculateTDEEFromData : List Observation → ℚ → ℚ → Option TdeeEstimate
  | [], _, _ => none
  | [_], _, _ => none
  | first :: second :: rest, dailyCalories, weeksBack =>
    let weightData := first :: second :: rest
    let latestPoint := (second :: rest).getLast (List.cons_ne_nil second rest)
    let targetWeek := latestPoint.weekNumber - weeksBack
    let earlierPoint := findEarlierPoint weightData targetWeek first
    let weeksDiff := latestPoint.weekNumber - earlierPoint.weekNumber
    if weeksDiff ≤ 0 then none
    else some (estimateFrom latestPoint earlierPoint dailyCalories)

/-! ## The weigh-in table and week normalisation (lines 48-95) -/

/-- The table `rawData`. -/
def rawData : List RawEntry :=
  [ ⟨9, 10, 255⟩, ⟨9, 22, 245⟩, ⟨10, 9, 238⟩, ⟨10, 16, 235⟩, ⟨10, 19, 234⟩,
    ⟨10, 22, 233⟩, ⟨10, 25, 231⟩, ⟨10, 29, 229⟩, ⟨10, 31, 228⟩, ⟨11, 2, 227⟩,
    ⟨11, 3, 226⟩, ⟨11, 6, 226⟩, ⟨11, 10, 225⟩, ⟨11, 14, 223⟩, ⟨11, 15, 222⟩,
    ⟨11, 18, 220⟩, ⟨11, 25, 218⟩, ⟨11, 26, 217⟩, ⟨11, 29, 216⟩, ⟨12, 5, 214⟩,
    ⟨12, 12, 213⟩ ]

/-- Lengths of the months of 2025. -/
def monthLengths2025 : List ℕ := [31, 28, 31, 30, 31, 30, 31, 31, 30, 31, 30, 31]

/-- Days from 1 January 2025 (day `1`) to `new Date(2025, month - 1, day)`,
for a calendar date of 2025. -/
def dayOfYear2025 (month day : ℕ) : ℤ :=
  ((monthLengths2025.take (month - 1)).sum : ℕ) + (day : ℤ)

/-- The function `calculateWeekNumber`: whole days since `new Date(2025, 8, 10)`
(10 September 2025), divided by 7 and rounded to one decimal. -/
def calculateWeekNumber (month day : ℕ) : ℚ :=
  let diffDays : ℚ := ((dayOfYear2025 month day - dayOfYear2025 9 10 : ℤ) : ℚ)
  (mathRound (diffDays / 7 * 10) : ℚ) / 10

/-- The array `actualData`, for any raw table. -/
def actualDataOf (raw : List RawEntry) : List Observation :=
  raw.map (fun entry =>
    { weekNumber := calculateWeekNumber entry.month entry.day, weight := entry.weight })

/-- The array `actualData` of the built-in table. -/
def actualData : List Observation := actualDataOf rawData

/-- The constant `currentTDEE = tdeeData?.tdee || 2000`: the fallback `2000`
replaces a `null` estimate and also a falsy `tdee` of `0`. -/
def currentTDEEOf (tdeeData : Option TdeeEstimate) : ℤ :=
  match tdeeData with
  | none => 2000
  | some r => if r.tdee = 0 then 2000 else r.tdee

/-! ## The projector (lines 101-182) -/

/-- The object pushed to `allProjections` by one iteration of a phase loop
whose weekly loss is `rate`, at the running `weight` and `weekNumber`. -/
def projectionPoint (currentWeight currentTDEE : ℚ) (rate : ℚ) (phase : ℕ)
    (weight : ℚ) (weekNumber : ℤ) : ProjectionPoint :=
  let weightDiff := currentWeight - weight
  let tdeeAdjustment := weightDiff * 22
  let tdee := currentTDEE - tdeeAdjustment
  let dailyDeficit := rate * 3500 / 7
  let dailyCalories := tdee - dailyDeficit
  { weekNumber := (mathRound ((weekNumber : ℚ) * 10) : ℚ) / 10
    weight := (mathRound (weight * 10) : ℚ) / 10
    phase := phase
    tdee := mathRound tdee
    dailyCalories := mathRound dailyCalories
    deficit := mathRound dailyDeficit
    weeklyLoss := rate }

/-- The body of one phase loop: push the point for the running `weight` and
`weekNumber`, then `weight -= rate; weekNumber += 1`.  The three loops of the
source are this body with `(rate, phase) = (2.5, 1), (1.9, 2), (0.9, 3)`. -/
def phaseBody (currentWeight currentTDEE : ℚ) (rate : ℚ) (phase : ℕ)
    (s : ProjState) : ProjState :=
  { weight := s.weight - rate
    weekNumber := s.weekNumber + 1
    allProjections := s.allProjections ++
      [projectionPoint currentWeight currentTDEE rate phase s.weight s.weekNumber] }

/-- One phase loop `while (weight > bound) { ... }`. -/
def phaseLoop (currentWeight currentTDEE : ℚ) (bound rate : ℚ) (phase : ℕ)
    (fuel : ℕ) (s : ProjState) : Option ProjState :=
  whileLoop (fun s => decide (s.weight > bound))
    (phaseBody currentWeight currentTDEE rate phase) fuel s

/-- The three phase loops in sequence, from `weight = currentWeight` and
`weekNumber = Math.ceil(currentWeekNum)`; each loop may use `fuel` iterations. -/
def runProjection (fuel : ℕ) (currentWeight currentWeekNum currentTDEE : ℚ) :
    Option ProjState :=
  (phaseLoop currentWeight currentTDEE 200 (5 / 2) 1 fuel
      { weight := currentWeight, weekNumber := mathCeil currentWeekNum,
        allProjections := [] }).bind fun s1 =>
  (phaseLoop currentWeight currentTDEE 170 (19 / 10) 2 fuel s1).bind fun s2 =>
  phaseLoop currentWeight currentTDEE 150 (9 / 10) 3 fuel s2

/-- The array `allProjections` after the three loops. -/
def allProjections (fuel : ℕ) (currentWeight currentWeekNum currentTDEE : ℚ) :
    Option (List ProjectionPoint) :=
  (runProjection fuel currentWeight currentWeekNum currentTDEE).map
    ProjState.allProjections

/-! ## The weekly merge (lines 184-205) -/

/-- The constant `finalWeek = allProjections[allProjections.length - 1]?.weekNumber || 60`:
the fallback `60` replaces a missing last point and also a falsy `weekNumber` of `0`. -/
def finalWeek (projections : List ProjectionPoint) : ℚ :=
  match projections.getLast? with
  | none => 60
  | some p => if p.weekNumber = 0 then 60 else p.weekNumber

/-- The row pushed for `week` by the `for` loop of lines 188-205. -/
def weeklyRow (observations : List Observation) (projections : List ProjectionPoint)
    (week : ℕ) : WeeklyRow :=
  let actualPoint := observations.find? (fun d => decide (|d.weekNumber - (week : ℚ)| < 1 / 2))
  let projectedPoint := projections.find? (fun d => decide (d.weekNumber = (week : ℚ)))
  { weekNumber := week
    weight := actualPoint.map Observation.weight
    projected := projectedPoint.map ProjectionPoint.weight }

/-- The loop `for (let week = 0; week <= finalWeek; week++)` as a `whileLoop`
over the pair of `week` and the rows pushed so far. -/
def completeWeeklyData (fuel : ℕ) (observations : List Observation)
    (projections : List ProjectionPoint) : Option (List WeeklyRow) :=
  (whileLoop (fun (s : ℕ × List WeeklyRow) => decide ((s.1 : ℚ) ≤ finalWeek projections))
    (fun s => (s.1 + 1, s.2 ++ [weeklyRow observations projections s.1]))
    fuel (0, [])).map Prod.snd

/-! ## The phase cards (lines 336-366) -/

/-- The `Est. Duration` of the Phase 1 card: `Math.ceil((currentWeight - 200) / 2.5)`. -/
def estDuration₁ (currentWeight : ℚ) : ℤ := mathCeil ((currentWeight - 200) / (5 / 2))

/-- The `Est. Duration` of the Phase 2 card: `Math.ceil(30 / 1.9)`. -/
def estDuration₂ : ℤ := mathCeil (30 / (19 / 10))

/-- The `Est. Duration` of the Phase 3 card: `Math.ceil(20 / 0.9)`. -/
def estDuration₃ : ℤ := mathCeil (20 / (9 / 10))

/-! ## The built-in pipeline -/

/-- The constant `currentWeight`: the weight of the last weigh-in (`213`). -/
def currentWeight : ℚ := 213

/-- The constant `currentWeekNum`: the week number of the last weigh-in. -/
def currentWeekNum : ℚ := calculateWeekNumber 12 12

/-- The constant `tdeeData = calculateTDEEFromData(actualData, 1200, 4)`. -/
def tdeeData : Option TdeeEstimate := calculateTDEEFromData actualData 1200 4

/-- The constant `currentTDEE` of the built-in table. -/
def currentTDEE : ℤ := currentTDEEOf tdeeData

/-- The array `allProjections` of the built-in table. -/
def builtinProjections (fuel : ℕ) : Option (List ProjectionPoint) :=
  allProjections fuel currentWeight currentWeekNum currentTDEE


/-- The array `completeWeeklyData` of the built-in table. -/
def builtinWeeklyData (fuel : ℕ) : Option (List WeeklyRow) :=
  (builtinProjections fuel).bind fun pts => completeWeeklyData fuel actualData pts

/-! ## The binary64 model

JavaScript numbers are IEEE 754 binary64 values and every arithmetic operation
rounds its exact result to the nearest such value, ties to the even
significand.  `Binary64.fl` is that rounding on `ℚ`, with 53 significant bits and
an unbounded exponent (overflow and underflow do not occur at the magnitudes
considered).  The definitions of the namespace `Binary64` repeat the estimator,
the week normalisation and the phase loops with `fl` applied to the result of
every `+ - * /` of the source; comparisons, `Math.round` and `Math.ceil` are
exact on binary64 values.  A decimal literal `c` of the source is `fl c`. -/

namespace Binary64

/-- Rounding to the nearest integer, a tie going to the even one. -/
def roundHalfEven (t : ℚ) : ℤ :=
  if t - ⌊t⌋ < 1 / 2 then ⌊t⌋
  else if 1 / 2 < t - ⌊t⌋ then ⌊t⌋ + 1
  else if ⌊t⌋ % 2 = 0 then ⌊t⌋ else ⌊t⌋ + 1

/-- The power `2 ^ e` for an integer `e`. -/
def pow2 (e : ℤ) : ℚ :=
  if 0 ≤ e then ((2 ^ e.toNat : ℕ) : ℚ) else 1 / ((2 ^ (-e).toNat : ℕ) : ℚ)

/-- The number of binary digits of `n`, found in at most `fuel` halvings. -/
def bitLength : ℕ → ℕ → ℕ
  | 0, _ => 0
  | fuel + 1, n => if n = 0 then 0 else bitLength fuel (n / 2) + 1

/-- The binary exponent of `x ≠ 0`: the `e` with `2 ^ e ≤ |x| < 2 ^ (e + 1)`. -/
def expo (x : ℚ) : ℤ :=
  if pow2 ((bitLength x.num.natAbs x.num.natAbs : ℤ) - (bitLength x.den x.den : ℤ)) ≤ |x|
  then (bitLength x.num.natAbs x.num.natAbs : ℤ) - (bitLength x.den x.den : ℤ)
  else (bitLength x.num.natAbs x.num.natAbs : ℤ) - (bitLength x.den x.den : ℤ) - 1

/-- Rounding of `x ≥ 0` to 53 significant bits. -/
def flPos (x : ℚ) : ℚ :=
  if x = 0 then 0
  else (roundHalfEven (x / pow2 (expo x - 52)) : ℚ) * pow2 (expo x - 52)

/-- The binary64 rounding of a rational number. -/
def fl (x : ℚ) : ℚ := if 0 ≤ x then flPos x else -flPos (-x)

/-- The object literal returned by `calculateTDEEFromData` (lines 22-41), in
binary64 arithmetic. -/
def estimateFrom (latestPoint earlierPoint : Observation) (dailyCalories : ℚ) :
    TdeeEstimate :=
  let weeksDiff := fl (latestPoint.weekNumber - earlierPoint.weekNumber)
  let weightLoss := fl (earlierPoint.weight - latestPoint.weight)
  let totalCalorieDeficit := fl (weightLoss * 3500)
  let days := fl (weeksDiff * 7)
  let dailyDeficit := fl (totalCalorieDeficit / days)
  let tdee := fl (dailyCalories + dailyDeficit)
  { tdee := mathRound tdee
    dailyDeficit := mathRound dailyDeficit
    weeklyLossRate := fl ((mathRound (fl (fl (weightLoss / weeksDiff) * 10)) : ℚ) / 10)
    weeksAnalyzed := fl ((mathRound (fl (weeksDiff * 10)) : ℚ) / 10) }

/-- The function `calculateTDEEFromData` in binary64 arithmetic; the backward scan
compares each `weekNumber` with the rounded `targetWeek`. -/
def calculateTDEEFromData : List Observation → ℚ → ℚ → Option TdeeEstimate
  | [], _, _ => none
  | [_], _, _ => none
  | first :: second :: rest, dailyCalories, weeksBack =>
    let weightData := first :: second :: rest
    let latestPoint := (second :: rest).getLast (List.cons_ne_nil second rest)
    let targetWeek := fl (latestPoint.weekNumber - weeksBack)
    let earlierPoint := findEarlierPoint weightData targetWeek first
    let weeksDiff := fl (latestPoint.weekNumber - earlierPoint.weekNumber)
    if weeksDiff ≤ 0 then none
    else some (estimateFrom latestPoint earlierPoint dailyCalories)

/-- The function `calculateWeekNumber` in binary64 arithmetic. -/
def calculateWeekNumber (month day : ℕ) : ℚ :=
  let diffDays : ℚ := ((dayOfYear2025 month day - dayOfYear2025 9 10 : ℤ) : ℚ)
  fl ((mathRound (fl (fl (diffDays / 7) * 10)) : ℚ) / 10)

/-- The array `actualData` in binary64 arithmetic, for any raw table. -/
def actualDataOf (raw : List RawEntry) : List Observation :=
  raw.map (fun entry =>
    { weekNumber := calculateWeekNumber entry.month entry.day, weight := entry.weight })

/-- The variables the three phase loops share, all of them binary64 values. -/
structure ProjState where
  weight : ℚ
  weekNumber : ℚ
  allProjections : List ProjectionPoint
  deriving DecidableEq

/-- The object pushed by one iteration of a phase loop, in binary64 arithmetic. -/
def projectionPoint (currentWeight currentTDEE : ℚ) (rate : ℚ) (phase : ℕ)
    (weight weekNumber : ℚ) : ProjectionPoint :=
  let weightDiff := fl (currentWeight - weight)
  let tdeeAdjustment := fl (weightDiff * 22)
  let tdee := fl (currentTDEE - tdeeAdjustment)
  let dailyDeficit := fl (fl (rate * 3500) / 7)
  let dailyCalories := fl (tdee - dailyDeficit)
  { weekNumber := fl ((mathRound (fl (weekNumber * 10)) : ℚ) / 10)
    weight := fl ((mathRound (fl (weight * 10)) : ℚ) / 10)
    phase := phase
    tdee := mathRound tdee
    dailyCalories := mathRound dailyCalories
    deficit := mathRound dailyDeficit
    weeklyLoss := rate }

/-- The body of one phase loop in binary64 arithmetic: push the point, then
`weight -= rate; weekNumber += 1`, both rounded. -/
def phaseBody (currentWeight currentTDEE : ℚ) (rate : ℚ) (phase : ℕ)
    (s : ProjState) : ProjState :=
  { weight := fl (s.weight - rate)
    weekNumber := fl (s.weekNumber + 1)
    allProjections := s.allProjections ++
      [projectionPoint currentWeight currentTDEE rate phase s.weight s.weekNumber] }

/-- One phase loop `while (weight > bound) { ... }` in binary64 arithmetic. -/
def phaseLoop (currentWeight currentTDEE : ℚ) (bound rate : ℚ) (phase : ℕ)
    (fuel : ℕ) (s : ProjState) : Option ProjState :=
  whileLoop (fun s => decide (s.weight > bound))
    (phaseBody currentWeight currentTDEE rate phase) fuel s

/-- The three phase loops in sequence in binary64 arithmetic; the rates are the
binary64 values of the literals `2.5`, `1.9` and `0.9`. -/
def runProjection (fuel : ℕ) (currentWeight currentWeekNum currentTDEE : ℚ) :
    Option ProjState :=
  (phaseLoop currentWeight currentTDEE 200 (fl (5 / 2)) 1 fuel
      { weight := currentWeight, weekNumber := (mathCeil currentWeekNum : ℚ),
        allProjections := [] }).bind fun s1 =>
  (phaseLoop currentWeight currentTDEE 170 (fl (19 / 10)) 2 fuel s1).bind fun s2 =>
  phaseLoop currentWeight currentTDEE 150 (fl (9 / 10)) 3 fuel s2

/-- The array `allProjections` after the three loops, in binary64 arithmetic. -/
def allProjections (fuel : ℕ) (currentWeight currentWeekNum currentTDEE : ℚ) :
    Option (List ProjectionPoint) :=
  (runProjection fuel currentWeight currentWeekNum currentTDEE).map
    ProjState.allProjections

end Binary64

/-! ## Closed forms used in the proofs

Iteration counts and pushed points of the loops, and the ordering invariant of
the phase loops.  None of these is part of the embedding: each is related to
the loops by a theorem below. -/

/-- The iteration count of `while (weight > bound) { ...; weight -= rate }`
started at `weight = w`. -/
def phaseCount (bound rate w : ℚ) : ℕ := ⌈(w - bound) / rate⌉.toNat

/-- The points one phase pushes in `n` iterations from `(w, wk)`. -/
def phasePoints (cw tdee rate : ℚ) (phase : ℕ) (w : ℚ) (wk : ℤ) (n : ℕ) :
    List ProjectionPoint :=
  (List.range n).map fun (j : ℕ) =>
    projectionPoint cw tdee rate phase (w - (j : ℚ) * rate) (wk + (j : ℤ))

/-- Iterations of the Phase 1 loop from the starting weight `W`. -/
def count₁ (W : ℚ) : ℕ := phaseCount 200 (5 / 2) W

/-- The running weight when the Phase 1 loop is left. -/
def weight₁ (W : ℚ) : ℚ := W - (count₁ W : ℚ) * (5 / 2)

/-- Iterations of the Phase 2 loop. -/
def count₂ (W : ℚ) : ℕ := phaseCount 170 (19 / 10) (weight₁ W)

/-- The running weight when the Phase 2 loop is left. -/
def weight₂ (W : ℚ) : ℚ := weight₁ W - (count₂ W : ℚ) * (19 / 10)

/-- Iterations of the Phase 3 loop. -/
def count₃ (W : ℚ) : ℕ := phaseCount 150 (9 / 10) (weight₂ W)

/-- The points of the three phases, in closed form. -/
def projectionOf (W wk tdee : ℚ) : List ProjectionPoint :=
  phasePoints W tdee (5 / 2) 1 W (mathCeil wk) (count₁ W) ++
  (phasePoints W tdee (19 / 10) 2 (weight₁ W) (mathCeil wk + (count₁ W : ℤ)) (count₂ W) ++
   phasePoints W tdee (9 / 10) 3 (weight₂ W)
     (mathCeil wk + (count₁ W : ℤ) + (count₂ W : ℤ)) (count₃ W))

/-- The iteration count of `for (let week = 0; week <= finalWeek; week++)`. -/
def rowCount (finalWeek : ℚ) : ℕ := (⌊finalWeek⌋ + 1).toNat

/-- Consecutive projection points: the weight drops, the week advances by one,
the phase does not go back. -/
def Follows (a b : ProjectionPoint) : Prop :=
  b.weight < a.weight ∧ b.weekNumber = a.weekNumber + 1 ∧ a.phase ≤ b.phase

/-- The invariant of the loop of phase `ph`: the points pushed so far are
ordered, their phases are 1, 2 or 3, and the last one is one week and at
least `0.9` lb behind the running state. -/
def ProjInv (ph : ℕ) (s : ProjState) : Prop :=
  s.allProjections.Chain' Follows ∧
  (∀ p ∈ s.allProjections, p.phase = 1 ∨ p.phase = 2 ∨ p.phase = 3) ∧
  ∀ p ∈ s.allProjections.getLast?, p.phase ≤ ph ∧
    p.weekNumber = (s.weekNumber : ℚ) - 1 ∧
    ∃ w' : ℚ, p.weight = (mathRound (w' * 10) : ℚ) / 10 ∧ s.weight + 9 / 10 ≤ w'

/-- A property `P w p` holds of every point `p` of a projection together with
the running weight `w` at which it was pushed: the run starts at the given
weight, and after each point the running weight drops by the point's
`weeklyLoss`. -/
def AlongRun (P : ℚ → ProjectionPoint → Prop) : ℚ → List ProjectionPoint → Prop
  | _, [] => True
  | w, p :: rest => P w p ∧ AlongRun P (w - p.weeklyLoss) rest

/-- What a projection point pushed at the running weight `w` holds, in a
projection started at the weight `W` with the baseline `B`. -/
def PointRule (W B : ℚ) (w : ℚ) (p : ProjectionPoint) : Prop :=
  p.weight = (mathRound (w * 10) : ℚ) / 10 ∧
  p.tdee = mathRound (B - 22 * (W - w)) ∧
  (p.phase = 1 → p.deficit = 1250) ∧
  (p.phase = 2 → p.deficit = 950) ∧
  (p.phase = 3 → p.deficit = 450) ∧
  p.dailyCalories = p.tdee - p.deficit

/-! ## Loops: budget, determinism, closed form, invariants -/

theorem whileLoop_succ {σ : Type} (cond : σ → Bool) (body : σ → σ) :
    ∀ (fuel : ℕ) (s t : σ), whileLoop cond body fuel s = some t →
      whileLoop cond body (fuel + 1) s = some t := by
  intro fuel
  induction fuel with
  | zero =>
    intro s t h
    by_cases hc : cond s = true
    · simp [whileLoop, hc] at h
    · simpa [whileLoop, hc] using h
  | succ n ih =>
    intro s t h
    by_cases hc : cond s = true
    · rw [whileLoop, if_pos hc] at h
      rw [whileLoop, if_pos hc]
      exact ih _ _ h
    · rw [whileLoop, if_neg hc] at h
      rw [whileLoop, if_neg hc]
      exact h

theorem whileLoop_mono {σ : Type} (cond : σ → Bool) (body : σ → σ)
    {fuel fuel' : ℕ} (hle : fuel ≤ fuel') {s t : σ}
    (h : whileLoop cond body fuel s = some t) :
    whileLoop cond body fuel' s = some t := by
  induction hle with
  | refl => exact h
  | step _ ih => exact whileLoop_succ cond body _ _ _ ih

theorem whileLoop_det {σ : Type} (cond : σ → Bool) (body : σ → σ)
    {f₁ f₂ : ℕ} {s a b : σ} (ha : whileLoop cond body f₁ s = some a)
    (hb : whileLoop cond body f₂ s = some b) : a = b := by
  have h1 := whileLoop_mono cond body (le_max_left f₁ f₂) ha
  have h2 := whileLoop_mono cond body (le_max_right f₁ f₂) hb
  rw [h1] at h2
  exact Option.some.inj h2

/-- A loop whose condition holds at the first `n` iterates and fails at the
`n`-th stops there, for every budget of at least `n`. -/
theorem whileLoop_iterate {σ : Type} (cond : σ → Bool) (body : σ → σ) :
    ∀ (n : ℕ) (s : σ), (∀ k, k < n → cond (body^[k] s) = true) →
      cond (body^[n] s) = false → ∀ fuel, n ≤ fuel →
      whileLoop cond body fuel s = some (body^[n] s) := by
  intro n
  induction n with
  | zero =>
    intro s _ hn fuel _
    have hc : cond s = false := by simpa using hn
    cases fuel <;> simp [whileLoop, hc]
  | succ n ih =>
    intro s hlt hn fuel hfuel
    obtain ⟨m, rfl⟩ : ∃ m, fuel = m + 1 := ⟨fuel - 1, by omega⟩
    have hc : cond s = true := by simpa using hlt 0 (Nat.succ_pos n)
    rw [whileLoop, if_pos hc, Function.iterate_succ_apply]
    refine ih (body s) ?_ ?_ m (by omega)
    · intro k hk
      have := hlt (k + 1) (by omega)
      rwa [Function.iterate_succ_apply] at this
    · rwa [Function.iterate_succ_apply] at hn

/-- A loop invariant that the body preserves while the condition holds is true
of the final state, where the condition is false. -/
theorem whileLoop_invariant {σ : Type} (cond : σ → Bool) (body : σ → σ)
    (I : σ → Prop) (hstep : ∀ s, cond s = true → I s → I (body s)) :
    ∀ (fuel : ℕ) (s t : σ), I s → whileLoop cond body fuel s = some t →
      I t ∧ cond t = false := by
  intro fuel
  induction fuel with
  | zero =>
    intro s t hI h
    by_cases hc : cond s = true
    · simp [whileLoop, hc] at h
    · simp only [whileLoop, if_neg hc, Option.some.injEq] at h
      subst h
      exact ⟨hI, by simpa using hc⟩
  | succ n ih =>
    intro s t hI h
    by_cases hc : cond s = true
    · rw [whileLoop, if_pos hc] at h
      exact ih _ _ (hstep s hc hI) h
    · simp only [whileLoop, if_neg hc, Option.some.injEq] at h
      subst h
      exact ⟨hI, by simpa using hc⟩


/-! ## Rounding -/

theorem mathRound_mono {x y : ℚ} (h : x ≤ y) : mathRound x ≤ mathRound y :=
  Int.floor_mono (by linarith)

theorem mathRound_add_int (x : ℚ) (n : ℤ) : mathRound (x + n) = mathRound x + n := by
  unfold mathRound
  rw [show x + (n : ℚ) + 1 / 2 = x + 1 / 2 + (n : ℚ) by ring, Int.floor_add_int]

theorem mathRound_intCast (n : ℤ) : mathRound (n : ℚ) = n := by
  unfold mathRound
  rw [add_comm, Int.floor_add_int]
  norm_num

/-- The field `Math.round(weekNumber * 10) / 10` of an integer `weekNumber`. -/
theorem round_week (n : ℤ) : (mathRound ((n : ℚ) * 10) : ℚ) / 10 = n := by
  have h : ((n : ℚ) * 10) = ((n * 10 : ℤ) : ℚ) := by push_cast; ring
  rw [h, mathRound_intCast]
  push_cast
  ring

/-- Running weights at least `0.9` apart are emitted as different weights. -/
theorem round_weight_lt {w w' : ℚ} (h : w' + 9 / 10 ≤ w) :
    (mathRound (w' * 10) : ℚ) / 10 < (mathRound (w * 10) : ℚ) / 10 := by
  have h1 : mathRound (w' * 10) + 9 ≤ mathRound (w * 10) := by
    have := mathRound_add_int (w' * 10) 9
    rw [← this]
    apply mathRound_mono
    push_cast
    linarith
  have h2 : mathRound (w' * 10) < mathRound (w * 10) := by omega
  have h3 : (mathRound (w' * 10) : ℚ) < (mathRound (w * 10) : ℚ) := by exact_mod_cast h2
  linarith

/-! ## The phase loops in closed form -/

theorem phaseBody_iterate (cw tdee rate : ℚ) (phase : ℕ) (s : ProjState) :
    ∀ k : ℕ, (phaseBody cw tdee rate phase)^[k] s =
      { weight := s.weight - (k : ℚ) * rate
        weekNumber := s.weekNumber + (k : ℤ)
        allProjections := s.allProjections ++
          phasePoints cw tdee rate phase s.weight s.weekNumber k } := by
  intro k
  induction k with
  | zero => simp [phasePoints]
  | succ k ih =>
    rw [Function.iterate_succ_apply', ih]
    simp only [phaseBody, phasePoints, List.range_succ, List.map_append, List.map_cons,
      List.map_nil, List.append_assoc, Nat.cast_succ, ProjState.mk.injEq]
    refine ⟨by ring, by ring, trivial⟩

theorem phaseCount_spec {bound rate w : ℚ} (hr : 0 < rate) (k : ℕ) :
    k < phaseCount bound rate w ↔ bound < w - (k : ℚ) * rate := by
  unfold phaseCount
  rw [Int.lt_toNat, Int.lt_ceil, lt_div_iff₀ hr]
  constructor <;> intro h <;> push_cast at h ⊢ <;> linarith

/-- A phase loop with a positive rate stops after `phaseCount` iterations. -/
theorem phaseLoop_eq (cw tdee bound rate : ℚ) (phase : ℕ) (hr : 0 < rate)
    (s : ProjState) (fuel : ℕ) (hfuel : phaseCount bound rate s.weight ≤ fuel) :
    phaseLoop cw tdee bound rate phase fuel s =
      some { weight := s.weight - (phaseCount bound rate s.weight : ℚ) * rate
             weekNumber := s.weekNumber + (phaseCount bound rate s.weight : ℤ)
             allProjections := s.allProjections ++
               phasePoints cw tdee rate phase s.weight s.weekNumber
                 (phaseCount bound rate s.weight) } := by
  unfold phaseLoop
  rw [← phaseBody_iterate]
  apply whileLoop_iterate _ _ _ _ _ _ _ hfuel
  · intro k hk
    rw [phaseBody_iterate]
    simpa using (phaseCount_spec hr k).1 hk
  · rw [phaseBody_iterate]
    have := (@phaseCount_spec bound rate s.weight hr
      (phaseCount bound rate s.weight)).not.1 (lt_irrefl _)
    simpa using this


theorem runProjection_eq (W wk tdee : ℚ) (fuel : ℕ) (h1 : count₁ W ≤ fuel)
    (h2 : count₂ W ≤ fuel) (h3 : count₃ W ≤ fuel) :
    runProjection fuel W wk tdee =
      some { weight := weight₂ W - (count₃ W : ℚ) * (9 / 10)
             weekNumber := mathCeil wk + (count₁ W : ℤ) + (count₂ W : ℤ) + (count₃ W : ℤ)
             allProjections := projectionOf W wk tdee } := by
  simp only [count₁, count₂, count₃, weight₁, weight₂] at h1 h2 h3
  simp only [runProjection, projectionOf, count₁, count₂, count₃, weight₁, weight₂]
  rw [phaseLoop_eq W tdee 200 (5 / 2) 1 (by norm_num) ⟨W, mathCeil wk, []⟩ fuel h1,
    Option.some_bind,
    phaseLoop_eq W tdee 170 (19 / 10) 2 (by norm_num) ⟨_, _, _⟩ fuel h2,
    Option.some_bind,
    phaseLoop_eq W tdee 150 (9 / 10) 3 (by norm_num) ⟨_, _, _⟩ fuel h3]
  simp

theorem runProjection_mono {fuel fuel' : ℕ} (hle : fuel ≤ fuel') {W wk tdee : ℚ}
    {t : ProjState} (h : runProjection fuel W wk tdee = some t) :
    runProjection fuel' W wk tdee = some t := by
  unfold runProjection at h ⊢
  obtain ⟨s1, hs1, h⟩ := Option.bind_eq_some.1 h
  obtain ⟨s2, hs2, hs3⟩ := Option.bind_eq_some.1 h
  unfold phaseLoop at hs1 hs2 hs3 ⊢
  rw [whileLoop_mono _ _ hle hs1]
  simp only [Option.bind_some, Option.some_bind]
  rw [whileLoop_mono _ _ hle hs2]
  simp only [Option.bind_some, Option.some_bind]
  exact whileLoop_mono _ _ hle hs3

/-- The three loops terminate: a budget of `count₁ + count₂ + count₃` suffices. -/
theorem allProjections_terminates (W wk tdee : ℚ) :
    allProjections (count₁ W + count₂ W + count₃ W) W wk tdee =
      some (projectionOf W wk tdee) := by
  unfold allProjections
  rw [runProjection_eq W wk tdee _ (by omega) (by omega) (by omega)]
  rfl

/-- Whatever the budget, a finished run has pushed exactly `projectionOf`. -/
theorem allProjections_some {fuel : ℕ} {W wk tdee : ℚ} {pts : List ProjectionPoint}
    (h : allProjections fuel W wk tdee = some pts) : pts = projectionOf W wk tdee := by
  unfold allProjections at h
  obtain ⟨t, ht, rfl⟩ := Option.map_eq_some'.1 h
  have hm := runProjection_mono (le_max_left fuel (count₁ W + count₂ W + count₃ W)) ht
  rw [runProjection_eq W wk tdee _ (by omega) (by omega) (by omega)] at hm
  rw [← Option.some.inj hm]


theorem phasePoints_length (cw tdee rate : ℚ) (phase : ℕ) (w : ℚ) (wk : ℤ) (n : ℕ) :
    (phasePoints cw tdee rate phase w wk n).length = n := by
  simp [phasePoints]

theorem phasePoints_phase {cw tdee rate : ℚ} {phase : ℕ} {w : ℚ} {wk : ℤ} {n : ℕ}
    {p : ProjectionPoint} (hp : p ∈ phasePoints cw tdee rate phase w wk n) :
    p.phase = phase := by
  simp only [phasePoints, List.mem_map] at hp
  obtain ⟨j, -, rfl⟩ := hp
  rfl

theorem phasePoints_countP (cw tdee rate : ℚ) (phase ph : ℕ) (w : ℚ) (wk : ℤ) (n : ℕ) :
    (phasePoints cw tdee rate phase w wk n).countP (fun p => decide (p.phase = ph)) =
      if phase = ph then n else 0 := by
  split_ifs with h
  · rw [List.countP_eq_length.2, phasePoints_length]
    intro p hp
    simpa [phasePoints_phase hp] using h
  · rw [List.countP_eq_zero]
    intro p hp
    simpa [phasePoints_phase hp] using h

theorem phasePoints_succ (cw tdee rate : ℚ) (phase : ℕ) (w : ℚ) (wk : ℤ) (n : ℕ) :
    phasePoints cw tdee rate phase w wk (n + 1) =
      phasePoints cw tdee rate phase w wk n ++
        [projectionPoint cw tdee rate phase (w - (n : ℚ) * rate) (wk + (n : ℤ))] := by
  simp [phasePoints, List.range_succ]

theorem phasePoints_mem {cw tdee rate : ℚ} {phase : ℕ} {w : ℚ} {wk : ℤ} {n : ℕ}
    {p : ProjectionPoint} (hp : p ∈ phasePoints cw tdee rate phase w wk n) :
    ∃ j : ℕ, j < n ∧
      p = projectionPoint cw tdee rate phase (w - (j : ℚ) * rate) (wk + (j : ℤ)) := by
  simp only [phasePoints, List.mem_map, List.mem_range] at hp
  obtain ⟨j, hj, rfl⟩ := hp
  exact ⟨j, hj, rfl⟩

theorem phaseCount_cast (bound rate w : ℚ) :
    ((phaseCount bound rate w : ℕ) : ℤ) = max 0 ⌈(w - bound) / rate⌉ := by
  rw [phaseCount, Int.toNat_eq_max, max_comm]

/-- Every point of a projection sits at a whole week. -/
theorem projectionOf_week_int {W wk tdee : ℚ} {p : ProjectionPoint}
    (hp : p ∈ projectionOf W wk tdee) : ∃ z : ℤ, p.weekNumber = z := by
  simp only [projectionOf, List.mem_append] at hp
  rcases hp with h | h | h <;>
  · obtain ⟨j, -, rfl⟩ := phasePoints_mem h
    exact ⟨_, round_week _⟩

/-! ## Points along the running weight -/

theorem phasePoints_cons (cw tdee rate : ℚ) (phase : ℕ) (w : ℚ) (wk : ℤ) (n : ℕ) :
    phasePoints cw tdee rate phase w wk (n + 1) =
      projectionPoint cw tdee rate phase w wk ::
        phasePoints cw tdee rate phase (w - rate) (wk + 1) n := by
  simp only [phasePoints, List.range_succ_eq_map, List.map_cons, List.map_map]
  congr 1
  · simp
  · apply List.map_congr_left
    intro j _
    simp only [Function.comp, Nat.succ_eq_add_one]
    congr 1
    · push_cast
      ring
    · push_cast
      ring

theorem phasePoints_loss_sum (cw tdee rate : ℚ) (phase : ℕ) (w : ℚ) (wk : ℤ) (n : ℕ) :
    ((phasePoints cw tdee rate phase w wk n).map ProjectionPoint.weeklyLoss).sum =
      (n : ℚ) * rate := by
  induction n generalizing w wk with
  | zero => simp [phasePoints]
  | succ n ih =>
    rw [phasePoints_cons, List.map_cons, List.sum_cons, ih]
    simp only [projectionPoint]
    push_cast
    ring

theorem AlongRun_append (P : ℚ → ProjectionPoint → Prop) (l₁ l₂ : List ProjectionPoint) :
    ∀ w : ℚ, AlongRun P w (l₁ ++ l₂) ↔
      AlongRun P w l₁ ∧ AlongRun P (w - (l₁.map ProjectionPoint.weeklyLoss).sum) l₂ := by
  induction l₁ with
  | nil => intro w; simp [AlongRun]
  | cons p l ih =>
    intro w
    show P w p ∧ AlongRun P (w - p.weeklyLoss) (l ++ l₂) ↔ _
    rw [ih]
    simp only [AlongRun, List.map_cons, List.sum_cons, and_assoc, sub_sub]

theorem AlongRun_phasePoints (P : ℚ → ProjectionPoint → Prop) (cw tdee rate : ℚ)
    (phase : ℕ) (hP : ∀ (w : ℚ) (wk : ℤ), P w (projectionPoint cw tdee rate phase w wk))
    (n : ℕ) : ∀ (w : ℚ) (wk : ℤ), AlongRun P w (phasePoints cw tdee rate phase w wk n) := by
  induction n with
  | zero => intro w wk; simp [phasePoints, AlongRun]
  | succ n ih =>
    intro w wk
    rw [phasePoints_cons]
    exact ⟨hP w wk, ih _ _⟩

theorem AlongRun_projectionOf (P : ℚ → ProjectionPoint → Prop) (W wk tdee : ℚ)
    (h1 : ∀ (w : ℚ) (k : ℤ), P w (projectionPoint W tdee (5 / 2) 1 w k))
    (h2 : ∀ (w : ℚ) (k : ℤ), P w (projectionPoint W tdee (19 / 10) 2 w k))
    (h3 : ∀ (w : ℚ) (k : ℤ), P w (projectionPoint W tdee (9 / 10) 3 w k)) :
    AlongRun P W (projectionOf W wk tdee) := by
  unfold projectionOf
  rw [AlongRun_append, AlongRun_append, phasePoints_loss_sum, phasePoints_loss_sum]
  exact ⟨AlongRun_phasePoints P W tdee _ 1 h1 _ _ _,
    AlongRun_phasePoints P W tdee _ 2 h2 _ _ _,
    AlongRun_phasePoints P W tdee _ 3 h3 _ _ _⟩

theorem pointRule_projectionPoint (W B rate : ℚ) (phase : ℕ) (d : ℤ)
    (hd : rate * 3500 / 7 = (d : ℚ))
    (h1 : phase = 1 → d = 1250) (h2 : phase = 2 → d = 950) (h3 : phase = 3 → d = 450)
    (w : ℚ) (k : ℤ) : PointRule W B w (projectionPoint W B rate phase w k) := by
  have hdef : (projectionPoint W B rate phase w k).deficit = d := by
    simp only [projectionPoint, hd, mathRound_intCast]
  refine ⟨rfl, ?_, fun h => hdef.trans (h1 h), fun h => hdef.trans (h2 h),
    fun h => hdef.trans (h3 h), ?_⟩
  · simp only [projectionPoint]
    congr 1
    ring
  · rw [hdef]
    simp only [projectionPoint, hd]
    rw [show B - (W - w) * 22 - (d : ℚ) = B - (W - w) * 22 + ((-d : ℤ) : ℚ) by
      push_cast; ring, mathRound_add_int]
    ring

/-- Along a run, `tdee` starts at the rounded baseline and never increases. -/
theorem AlongRun_tdee (W B : ℚ) :
    ∀ (l : List ProjectionPoint) (w : ℚ),
      AlongRun (fun w p => PointRule W B w p ∧ 0 ≤ p.weeklyLoss) w l →
      (∀ p, l.head? = some p → p.tdee = mathRound (B - 22 * (W - w))) ∧
      l.Chain' (fun a b => b.tdee ≤ a.tdee) := by
  intro l
  induction l with
  | nil => intro w _; simp
  | cons p l ih =>
    intro w h
    obtain ⟨⟨hp, hloss⟩, hrest⟩ := h
    obtain ⟨hhead, hchain⟩ := ih _ hrest
    refine ⟨fun q hq => ?_, ?_⟩
    · simp only [List.head?_cons, Option.some.injEq] at hq
      subst hq
      exact hp.2.1
    · rw [List.chain'_cons']
      refine ⟨fun q hq => ?_, hchain⟩
      rw [hhead q hq, hp.2.1]
      apply mathRound_mono
      linarith

/-! ## The ordering invariant of the phase loops -/

theorem ProjInv.weaken {ph ph' : ℕ} (hle : ph ≤ ph') {s : ProjState}
    (h : ProjInv ph s) : ProjInv ph' s := by
  obtain ⟨h1, h2, h3⟩ := h
  refine ⟨h1, h2, fun p hp => ?_⟩
  obtain ⟨a, b, c⟩ := h3 p hp
  exact ⟨le_trans a hle, b, c⟩

theorem ProjInv.step (cw tdee rate : ℚ) (ph : ℕ) (hrate : 9 / 10 ≤ rate)
    (hph : ph = 1 ∨ ph = 2 ∨ ph = 3) {s : ProjState} (h : ProjInv ph s) :
    ProjInv ph (phaseBody cw tdee rate ph s) := by
  obtain ⟨h1, h2, h3⟩ := h
  refine ⟨?_, ?_, ?_⟩
  · simp only [phaseBody]
    rw [List.chain'_append]
    refine ⟨h1, List.chain'_singleton _, ?_⟩
    intro x hx y hy
    simp only [List.head?_cons, Option.mem_def, Option.some.injEq] at hy
    subst hy
    obtain ⟨a, b, w', hw, hle⟩ := h3 x hx
    refine ⟨?_, ?_, a⟩
    · rw [hw]
      exact round_weight_lt hle
    · simp only [projectionPoint]
      rw [round_week, b]
      ring
  · intro p hp
    simp only [phaseBody, List.mem_append, List.mem_singleton] at hp
    rcases hp with hp | rfl
    · exact h2 p hp
    · exact hph
  · intro p hp
    have hp' : p = projectionPoint cw tdee rate ph s.weight s.weekNumber := by
      simpa [phaseBody, eq_comm] using hp
    subst hp'
    refine ⟨le_refl _, ?_, s.weight, rfl, ?_⟩
    · simp only [projectionPoint, phaseBody]
      rw [round_week]
      push_cast
      ring
    · simp only [phaseBody]
      linarith

theorem phaseLoop_inv (cw tdee bound rate : ℚ) (ph : ℕ) (hrate : 9 / 10 ≤ rate)
    (hph : ph = 1 ∨ ph = 2 ∨ ph = 3) {fuel : ℕ} {s t : ProjState} (h : ProjInv ph s)
    (hrun : phaseLoop cw tdee bound rate ph fuel s = some t) : ProjInv ph t :=
  (whileLoop_invariant _ _ (ProjInv ph)
    (fun _ _ hI => ProjInv.step cw tdee rate ph hrate hph hI) fuel s t h hrun).1

/-! ## The weekly merge in closed form -/

theorem rowCount_spec (finalWeek : ℚ) (k : ℕ) :
    k < rowCount finalWeek ↔ (k : ℚ) ≤ finalWeek := by
  unfold rowCount
  rw [Int.lt_toNat, Int.lt_add_one_iff, Int.le_floor]
  norm_num

theorem mergeBody_iterate (observations : List Observation)
    (projections : List ProjectionPoint) :
    ∀ k : ℕ, (fun s : ℕ × List WeeklyRow =>
        (s.1 + 1, s.2 ++ [weeklyRow observations projections s.1]))^[k] (0, []) =
      (k, (List.range k).map (weeklyRow observations projections)) := by
  intro k
  induction k with
  | zero => rfl
  | succ k ih =>
    rw [Function.iterate_succ_apply', ih]
    simp [List.range_succ]

/-- The merge loop stops after `rowCount finalWeek` iterations. -/
theorem completeWeeklyData_eq (observations : List Observation)
    (projections : List ProjectionPoint) (fuel : ℕ)
    (hfuel : rowCount (finalWeek projections) ≤ fuel) :
    completeWeeklyData fuel observations projections =
      some ((List.range (rowCount (finalWeek projections))).map
        (weeklyRow observations projections)) := by
  unfold completeWeeklyData
  rw [whileLoop_iterate _ _ (rowCount (finalWeek projections)) (0, []) ?_ ?_ fuel hfuel,
    mergeBody_iterate]
  · rfl
  · intro k hk
    rw [mergeBody_iterate]
    simpa using (rowCount_spec _ k).1 hk
  · rw [mergeBody_iterate]
    simpa using (rowCount_spec (finalWeek projections) _).not.1 (lt_irrefl _)

/-- Whatever the budget, a finished merge is the closed form. -/
theorem completeWeeklyData_some {observations : List Observation}
    {projections : List ProjectionPoint} {fuel : ℕ} {rows : List WeeklyRow}
    (h : completeWeeklyData fuel observations projections = some rows) :
    rows = (List.range (rowCount (finalWeek projections))).map
      (weeklyRow observations projections) := by
  have h2 := completeWeeklyData_eq observations projections _ (le_refl _)
  unfold completeWeeklyData at h h2
  obtain ⟨a, ha, rfl⟩ := Option.map_eq_some'.1 h
  obtain ⟨b, hb, hb'⟩ := Option.map_eq_some'.1 h2
  rw [whileLoop_det _ _ ha hb, hb']

theorem weeklyRows_length (observations : List Observation)
    (projections : List ProjectionPoint) (n : ℕ) :
    ((List.range n).map (weeklyRow observations projections)).length = n := by
  simp

theorem weeklyRows_get (observations : List Observation)
    (projections : List ProjectionPoint) (n i : ℕ)
    (hi : i < ((List.range n).map (weeklyRow observations projections)).length) :
    (((List.range n).map (weeklyRow observations projections)).get ⟨i, hi⟩).weekNumber = i := by
  simp [weeklyRow]

theorem weeklyRows_mem {observations : List Observation}
    {projections : List ProjectionPoint} {n : ℕ} {r : WeeklyRow}
    (hr : r ∈ (List.range n).map (weeklyRow observations projections)) :
    r = weeklyRow observations projections r.weekNumber := by
  simp only [List.mem_map, List.mem_range] at hr
  obtain ⟨k, -, rfl⟩ := hr
  rfl

/-- The first element of a list that satisfies a test is what `find` returns. -/
theorem find?_first {α : Type} (p : α → Bool) (pre : List α) (x : α) (post : List α)
    (hx : p x = true) (hpre : ∀ y ∈ pre, p y = false) :
    (pre ++ x :: post).find? p = some x := by
  induction pre with
  | nil => simp [List.find?, hx]
  | cons a pre ih =>
    have ha : p a = false := hpre a (List.mem_cons_self a pre)
    rw [List.cons_append, List.find?, ha]
    exact ih fun y hy => hpre y (List.mem_cons_of_mem a hy)

/-! ## The estimator unfolded -/

/-- The function `calculateTDEEFromData` on a series of at least two observations, in
terms of its first and last element. -/
theorem calculateTDEEFromData_unfold {weightData : List Observation}
    {first latest : Observation} (dailyCalories weeksBack : ℚ)
    (hfirst : weightData.head? = some first) (hlast : weightData.getLast? = some latest)
    (hlen : 2 ≤ weightData.length) :
    calculateTDEEFromData weightData dailyCalories weeksBack =
      if latest.weekNumber -
          (findEarlierPoint weightData (latest.weekNumber - weeksBack) first).weekNumber ≤ 0
      then none
      else some (estimateFrom latest
        (findEarlierPoint weightData (latest.weekNumber - weeksBack) first) dailyCalories) := by
  rcases weightData with _ | ⟨a, _ | ⟨b, rest⟩⟩
  · simp at hlen
  · simp at hlen
  · simp only [List.head?_cons, Option.some.injEq] at hfirst
    subst hfirst
    have hl : (b :: rest).getLast (List.cons_ne_nil b rest) = latest := by
      rw [List.getLast?_cons_cons, List.getLast?_eq_getLast _ (List.cons_ne_nil b rest)] at hlast
      exact Option.some.inj hlast
    simp only [calculateTDEEFromData, hl]

/-- The backward scan either finds nothing and keeps `weightData[0]`, or
returns the last element of the series with `weekNumber <= targetWeek`. -/
theorem findEarlierPoint_cases (weightData : List Observation) (targetWeek : ℚ)
    (first : Observation) :
    (findEarlierPoint weightData targetWeek first = first ∧
      ∀ o ∈ weightData, ¬ o.weekNumber ≤ targetWeek) ∨
    ∃ (before : List Observation) (e : Observation) (after : List Observation),
      weightData = before ++ e :: after ∧
      findEarlierPoint weightData targetWeek first = e ∧
      e.weekNumber ≤ targetWeek ∧ ∀ o ∈ after, ¬ o.weekNumber ≤ targetWeek := by
  unfold findEarlierPoint
  cases hfind : weightData.reverse.find? (fun p => decide (p.weekNumber ≤ targetWeek)) with
  | none =>
    left
    refine ⟨rfl, fun o ho => ?_⟩
    simpa using List.find?_eq_none.1 hfind o (List.mem_reverse.2 ho)
  | some e =>
    right
    obtain ⟨he, as, bs, hsplit, has⟩ := List.find?_eq_some.1 hfind
    refine ⟨bs.reverse, e, as.reverse, ?_, rfl, by simpa using he, fun o ho => ?_⟩
    · have := congrArg List.reverse hsplit
      simpa using this
    · simpa using has o (List.mem_reverse.1 ho)

/-- In a series sorted by week the first observation is the earliest. -/
theorem sorted_first_le {weightData : List Observation} {first : Observation}
    (hfirst : weightData.head? = some first)
    (hsorted : weightData.Pairwise (fun a b => a.weekNumber ≤ b.weekNumber)) :
    ∀ o ∈ weightData, first.weekNumber ≤ o.weekNumber := by
  rcases weightData with _ | ⟨a, rest⟩
  · simp at hfirst
  · simp only [List.head?_cons, Option.some.injEq] at hfirst
    subst hfirst
    intro o ho
    rcases List.mem_cons.1 ho with rfl | ho
    · exact le_refl _
    · exact (List.pairwise_cons.1 hsorted).1 o ho

/-- In a series sorted by week the last observation is the latest. -/
theorem sorted_le_last {weightData : List Observation} {latest : Observation}
    (hlast : weightData.getLast? = some latest)
    (hsorted : weightData.Pairwise (fun a b => a.weekNumber ≤ b.weekNumber)) :
    ∀ o ∈ weightData, o.weekNumber ≤ latest.weekNumber := by
  have hrev : weightData.reverse.head? = some latest := by
    rw [List.head?_reverse]
    exact hlast
  have hs : weightData.reverse.Pairwise (fun a b => b.weekNumber ≤ a.weekNumber) :=
    List.pairwise_reverse.2 hsorted
  rcases hw : weightData.reverse with _ | ⟨a, rest⟩
  · rw [hw] at hrev
    simp at hrev
  · rw [hw] at hrev hs
    simp only [List.head?_cons, Option.some.injEq] at hrev
    subst hrev
    intro o ho
    have ho' : o ∈ a :: rest := by
      rw [← hw]
      exact List.mem_reverse.2 ho
    rcases List.mem_cons.1 ho' with rfl | ho'
    · exact le_refl _
    · exact (List.pairwise_cons.1 hs).1 o ho'

/-! ## Evaluations on concrete inputs -/

/-- The estimate of the built-in table, evaluated. -/
theorem tdeeData_eval :
    calculateTDEEFromData actualData 1200 4 =
      some { tdee := 2450, dailyDeficit := 1250, weeklyLossRate := 5 / 2, weeksAnalyzed := 4 } := by
  decide!

/-- The closed form of the built-in projection ends at week 56 with 150.6 lb. -/
theorem builtin_projectionOf_last :
    (projectionOf currentWeight currentWeekNum currentTDEE).getLast? =
      some { weekNumber := 56, weight := 753 / 5, phase := 3, tdee := 1077,
             dailyCalories := 627, deficit := 450, weeklyLoss := 9 / 10 } := by
  decide!


/-- The closed form of the projection from 200.04 lb: the only Phase 1 point
is emitted with weight 200. -/
theorem projectionOf_200_04_phase1 :
    ∀ p ∈ projectionOf (5001 / 25) 0 2000, p.phase = 1 → p.weight = 200 := by
  decide!

/-- The closed form of the built-in merge: 57 rows, `projected` absent in the
rows of weeks 0 to 13 and present from week 14 on. -/
theorem builtin_rows_eval :
    rowCount (finalWeek (projectionOf currentWeight currentWeekNum currentTDEE)) = 57 ∧
    ∀ r ∈ (List.range 57).map
        (weeklyRow actualData (projectionOf currentWeight currentWeekNum currentTDEE)),
      (r.weekNumber ≤ 13 → r.projected = none) ∧
      (14 ≤ r.weekNumber → r.projected.isSome = true) := by
  decide!

/-- A projection from 150.5 lb starting three weeks before the epoch: one
point, at week `-3`, and a merge without rows. -/
theorem early_projection_eval :
    calculateWeekNumber 8 20 = -3 ∧
    currentTDEEOf (calculateTDEEFromData (actualDataOf [⟨8, 20, 301 / 2⟩]) 1200 4) = 2000 ∧
    projectionOf (301 / 2) (-3) 2000 =
      [{ weekNumber := -3, weight := 301 / 2, phase := 3, tdee := 2000,
         dailyCalories := 1550, deficit := 450, weeklyLoss := 9 / 10 }] ∧
    rowCount (finalWeek (projectionOf (301 / 2) (-3) 2000)) = 0 := by
  decide!

/-- A projection from 150.5 lb starting at the epoch: its one point sits at
week `0`, which `finalWeek` replaces by the fallback `60`, and the merge has
61 rows. -/
theorem week_zero_projection_eval :
    projectionOf (301 / 2) 0 2000 =
      [{ weekNumber := 0, weight := 301 / 2, phase := 3, tdee := 2000,
         dailyCalories := 1550, deficit := 450, weeklyLoss := 9 / 10 }] ∧
    finalWeek (projectionOf (301 / 2) 0 2000) = 60 ∧
    rowCount (finalWeek (projectionOf (301 / 2) 0 2000)) = 61 := by
  decide!

/-- The merge of the built-in table, on the closed form of its projection,
stops within 57 iterations. -/
theorem builtinWeeklyData_eq :
    builtinWeeklyData 57 =
      some ((List.range 57).map
        (weeklyRow actualData (projectionOf currentWeight currentWeekNum currentTDEE))) := by
  have hp := allProjections_terminates currentWeight currentWeekNum currentTDEE
  have h57 : allProjections 57 currentWeight currentWeekNum currentTDEE =
      some (projectionOf currentWeight currentWeekNum currentTDEE) := by
    unfold allProjections at hp ⊢
    obtain ⟨t, ht, hpts⟩ := Option.map_eq_some'.1 hp
    rw [runProjection_mono (show _ ≤ 57 by decide!) ht]
    exact congrArg some hpts
  unfold builtinWeeklyData builtinProjections
  rw [h57, Option.some_bind]
  have := completeWeeklyData_eq actualData
    (projectionOf currentWeight currentWeekNum currentTDEE) 57 (le_of_eq builtin_rows_eval.1)
  rwa [builtin_rows_eval.1] at this

/-- Whatever the budget, the finished merge of the built-in table is the same. -/
theorem builtinWeeklyData_some {fuel : ℕ} {rows : List WeeklyRow}
    (h : builtinWeeklyData fuel = some rows) :
    rows = (List.range 57).map
      (weeklyRow actualData (projectionOf currentWeight currentWeekNum currentTDEE)) := by
  unfold builtinWeeklyData builtinProjections at h
  obtain ⟨pts, hpts, hrows⟩ := Option.bind_eq_some.1 h
  obtain rfl := allProjections_some hpts
  rw [completeWeeklyData_some hrows, builtin_rows_eval.1]

/-- The weigh-ins matched by the rows of the built-in table: in every week but
6, 8 and 11 the first weigh-in within half a week is a closest one, and no week
has more than three weigh-ins within half a week. -/
theorem builtin_first_match_eval :
    ∀ k ∈ List.range 57,
      (actualData.find? (fun d => decide (|d.weekNumber - (k : ℚ)| < 1 / 2))).all (fun o =>
        decide ((k = 6 ∨ k = 8 ∨ k = 11 ∨
            ∀ o' ∈ actualData, |o.weekNumber - (k : ℚ)| ≤ |o'.weekNumber - (k : ℚ)|) ∧
          (actualData.filter
            (fun d => decide (|d.weekNumber - (k : ℚ)| < 1 / 2))).length ≤ 3)) = true := by
  decide!

/-- Week 8 of the built-in table: three weigh-ins within half a week, the first
of them (week 7.6, 227 lb) farther from week 8 than the one of week 8.1. -/
theorem builtin_week_eight_eval :
    actualData.find? (fun d => decide (|d.weekNumber - ((8 : ℕ) : ℚ)| < 1 / 2)) =
      some { weekNumber := 38 / 5, weight := 227 } ∧
    ({ weekNumber := 81 / 10, weight := 226 } : Observation) ∈ actualData ∧
    (actualData.filter (fun d => decide (|d.weekNumber - ((8 : ℕ) : ℚ)| < 1 / 2))).length = 3 ∧
    (weeklyRow actualData (projectionOf currentWeight currentWeekNum currentTDEE) 8).weight =
      some 227 := by
  decide!

/-- The durations shown on the phase cards of the built-in table. -/
theorem estDuration_eval :
    estDuration₁ currentWeight = 6 ∧ estDuration₂ = 16 ∧ estDuration₃ = 23 := by
  decide!

/-- The numbers of points of each phase in the closed form of the built-in
projection. -/
theorem builtin_phase_counts_eval :
    (projectionOf currentWeight currentWeekNum currentTDEE).countP
        (fun p => decide (p.phase = 1)) = 6 ∧
    (projectionOf currentWeight currentWeekNum currentTDEE).countP
        (fun p => decide (p.phase = 2)) = 15 ∧
    (projectionOf currentWeight currentWeekNum currentTDEE).countP
        (fun p => decide (p.phase = 3)) = 22 := by
  decide!

/-- The rounding of `10 * d / 7` for `d` days: ten times the whole weeks plus
one of 0, 1, 3, 4, 6, 7, 9. -/
theorem round_days (d : ℕ) :
    ∃ (q : ℕ) (c : ℤ), mathRound ((d : ℚ) / 7 * 10) = 10 * (q : ℤ) + c ∧
      c ∈ [(0 : ℤ), 1, 3, 4, 6, 7, 9] := by
  have hsmall : ∀ r, r < 7 →
      mathRound (((r : ℕ) : ℚ) / 7 * 10) ∈ [(0 : ℤ), 1, 3, 4, 6, 7, 9] := by decide!
  obtain ⟨q, r, hr, rfl⟩ : ∃ q r : ℕ, r < 7 ∧ d = 7 * q + r :=
    ⟨d / 7, d % 7, Nat.mod_lt d (by norm_num), (Nat.div_add_mod d 7).symm⟩
  refine ⟨q, mathRound ((r : ℚ) / 7 * 10), ?_, hsmall r hr⟩
  have hx : ((7 * q + r : ℕ) : ℚ) / 7 * 10 = (r : ℚ) / 7 * 10 + ((10 * (q : ℤ) : ℤ) : ℚ) := by
    push_cast
    field_simp
    ring
  rw [hx, mathRound_add_int]
  ring

/-- A gain of 12 lb in 5 weeks at 1200 kcal a day: the estimate is `tdee = 0`,
which `currentTDEEOf` replaces by the fallback 2000. -/
theorem zero_tdee_baseline_eval :
    calculateTDEEFromData
        [{ weekNumber := 0, weight := 200 }, { weekNumber := 5, weight := 212 }] 1200 4 =
      some { tdee := 0, dailyDeficit := -1200, weeklyLossRate := -12 / 5, weeksAnalyzed := 5 } ∧
    currentTDEEOf (calculateTDEEFromData
        [{ weekNumber := 0, weight := 200 }, { weekNumber := 5, weight := 212 }] 1200 4) =
      2000 := by
  decide!

/-- Every weigh-in of the built-in table is within half a week of one of the
weeks 0 to 56. -/
theorem builtin_weigh_ins_covered_eval :
    ∀ o ∈ actualData, ∃ k ∈ List.range 57, |o.weekNumber - (k : ℚ)| < 1 / 2 := by
  decide!

/-! ## The estimator on the built-in table -/

/-- C1, as stated, fails: on the built-in table `calculateTDEEFromData` with
`dailyCalories = 1200` and `weeksBack = 4` returns no result whose `tdee` lies
in the range 2000 to 2200. -/
theorem builtin_tdee_not_in_2000_2200 :
    ¬ ∃ r : TdeeEstimate, calculateTDEEFromData actualData 1200 4 = some r ∧
        0 < r.tdee ∧ 2000 ≤ r.tdee ∧ r.tdee ≤ 2200 := by
  rintro ⟨r, hr, -, -, hle⟩
  rw [tdeeData_eval] at hr
  obtain rfl := Option.some.inj hr
  exact absurd hle (by decide)

/-- C1, amended: on the built-in table `calculateTDEEFromData` with
`dailyCalories = 1200` and `weeksBack = 4` returns a non-null result whose
`tdee` is positive and equals 2450 (a daily deficit of 1250 over 4.0 weeks). -/
theorem builtin_tdee_is_2450 :
    ∃ r : TdeeEstimate, calculateTDEEFromData actualData 1200 4 = some r ∧
      0 < r.tdee ∧ r.tdee = 2450 ∧ r.dailyDeficit = 1250 ∧ r.weeksAnalyzed = 4 :=
  ⟨_, tdeeData_eval, by decide, rfl, rfl, rfl⟩

/-! ## The projection of the built-in table -/

/-- C2, as stated, fails: no run of the three phase loops on the built-in
table ends at a point whose `weight` is `<= 150`. -/
theorem builtin_projection_last_not_le_150 :
    ¬ ∃ (fuel : ℕ) (pts : List ProjectionPoint) (p : ProjectionPoint),
        builtinProjections fuel = some pts ∧ pts.getLast? = some p ∧ p.weight ≤ 150 := by
  rintro ⟨fuel, pts, p, hpts, hlast, hle⟩
  obtain rfl := allProjections_some hpts
  rw [builtin_projectionOf_last] at hlast
  obtain rfl := Option.some.inj hlast
  exact absurd hle (by norm_num)

/-- C2, amended: the three phase loops terminate on the built-in table, and
the sequence they produce ends at the Phase 3 point of week 56 whose `weight`
is 150.6, the last running weight above 150; the weight `<= 150` (149.7) is
only the value of the variable `weight` after the last loop. -/
theorem builtin_projection_last_is_150_6 :
    (∃ (fuel : ℕ) (pts : List ProjectionPoint), builtinProjections fuel = some pts) ∧
    (∀ (fuel : ℕ) (pts : List ProjectionPoint), builtinProjections fuel = some pts →
      ∃ p, pts.getLast? = some p ∧ p.weight = 753 / 5 ∧ 150 < p.weight ∧
        p.phase = 3 ∧ p.weekNumber = 56) ∧
    (∀ (fuel : ℕ) (s : ProjState),
      runProjection fuel currentWeight currentWeekNum currentTDEE = some s →
        s.weight = 1497 / 10 ∧ s.weight ≤ 150) := by
  refine ⟨⟨_, _, allProjections_terminates _ _ _⟩, ?_, ?_⟩
  · intro fuel pts hpts
    obtain rfl := allProjections_some hpts
    exact ⟨_, builtin_projectionOf_last, rfl, by norm_num, rfl, rfl⟩
  · intro fuel s hs
    have hm := runProjection_mono (le_max_left fuel 22) hs
    have he : runProjection (max fuel 22) currentWeight currentWeekNum currentTDEE =
        some _ := runProjection_eq currentWeight currentWeekNum currentTDEE (max fuel 22)
      (le_trans (by decide!) (le_max_right fuel 22))
      (le_trans (by decide!) (le_max_right fuel 22))
      (le_trans (by decide!) (le_max_right fuel 22))
    rw [he] at hm
    obtain rfl := Option.some.inj hm
    have hw : weight₂ currentWeight - (count₃ currentWeight : ℚ) * (9 / 10) = 1497 / 10 := by
      decide!
    simp only [hw]
    norm_num

/-! ## Ordering of the projection -/

/-- C3: for every starting weight, starting week and baseline TDEE the three
phase loops terminate, and along the sequence they produce the emitted
`weight` strictly decreases from each point to the next, `weekNumber` grows by
exactly 1 from each point to the next, and `phase` is 1, 2 or 3 and never
decreases. -/
theorem projection_ordered (W wk tdee : ℚ) :
    (∃ (fuel : ℕ) (pts : List ProjectionPoint),
      allProjections fuel W wk tdee = some pts) ∧
    ∀ (fuel : ℕ) (pts : List ProjectionPoint), allProjections fuel W wk tdee = some pts →
      pts.Chain' (fun a b =>
        b.weight < a.weight ∧ b.weekNumber = a.weekNumber + 1 ∧ a.phase ≤ b.phase) ∧
      ∀ p ∈ pts, p.phase = 1 ∨ p.phase = 2 ∨ p.phase = 3 := by
  refine ⟨⟨_, _, allProjections_terminates W wk tdee⟩, ?_⟩
  intro fuel pts hpts
  unfold allProjections at hpts
  obtain ⟨s3, hrun, rfl⟩ := Option.map_eq_some'.1 hpts
  unfold runProjection at hrun
  obtain ⟨s1, hs1, hrun⟩ := Option.bind_eq_some.1 hrun
  obtain ⟨s2, hs2, hs3⟩ := Option.bind_eq_some.1 hrun
  have i0 : ProjInv 1 { weight := W, weekNumber := mathCeil wk, allProjections := [] } :=
    ⟨List.chain'_nil, by simp, by simp⟩
  have i1 := phaseLoop_inv W tdee 200 (5 / 2) 1 (by norm_num) (by simp) i0 hs1
  have i2 := phaseLoop_inv W tdee 170 (19 / 10) 2 (by norm_num) (by simp)
    (i1.weaken (by decide)) hs2
  have i3 := phaseLoop_inv W tdee 150 (9 / 10) 3 (by norm_num) (by simp)
    (i2.weaken (by decide)) hs3
  exact ⟨i3.1, i3.2.1⟩

/-! ## The boundary between Phase 1 and Phase 2 -/

/-- C4, as stated, fails at the starting weight 200.04: the last (and only)
Phase 1 point is emitted with `weight` 200, which is not in `(200, 202.5]`. -/
theorem phase1_last_weight_not_above_200 :
    ∃ pts : List ProjectionPoint, allProjections 40 (5001 / 25) 0 2000 = some pts ∧
      ¬ ∃ (pre : List ProjectionPoint) (a b : ProjectionPoint) (post : List ProjectionPoint),
        pts = pre ++ a :: b :: post ∧ a.phase = 1 ∧ (∀ q ∈ b :: post, q.phase ≠ 1) ∧
        200 < a.weight ∧ a.weight ≤ 405 / 2 ∧ b.phase = 2 ∧ b.weight ≤ 200 := by
  have hrun := allProjections_terminates (5001 / 25) 0 2000
  have hmono : allProjections 40 (5001 / 25) 0 2000 =
      some (projectionOf (5001 / 25) 0 2000) := by
    unfold allProjections at hrun ⊢
    obtain ⟨t, ht, hpts⟩ := Option.map_eq_some'.1 hrun
    rw [runProjection_mono (show _ ≤ 40 by decide!) ht]
    exact congrArg some hpts
  refine ⟨_, hmono, ?_⟩
  rintro ⟨pre, a, b, post, hsplit, ha, -, hlt, -⟩
  have hmem : a ∈ projectionOf (5001 / 25) 0 2000 := by
    rw [hsplit]
    simp
  rw [projectionOf_200_04_phase1 a hmem ha] at hlt
  exact lt_irrefl _ hlt

/-- C4, amended: for every starting weight greater than 200 the loops terminate,
the last projection point with phase 1 has its emitted `weight` in the closed
interval `[200, 202.5]` (and above 200 when the starting weight is a whole
number of tenths), and the point immediately after it has phase 2 and an
emitted `weight <= 200`. -/
theorem phase1_boundary (W wk tdee : ℚ) (hW : 200 < W) :
    (∃ (fuel : ℕ) (pts : List ProjectionPoint),
      allProjections fuel W wk tdee = some pts) ∧
    ∀ (fuel : ℕ) (pts : List ProjectionPoint), allProjections fuel W wk tdee = some pts →
      ∃ (pre : List ProjectionPoint) (a b : ProjectionPoint) (post : List ProjectionPoint),
        pts = pre ++ a :: b :: post ∧ a.phase = 1 ∧ (∀ q ∈ b :: post, q.phase ≠ 1) ∧
        200 ≤ a.weight ∧ a.weight ≤ 405 / 2 ∧ b.phase = 2 ∧ b.weight ≤ 200 ∧
        ((∃ z : ℤ, W * 10 = z) → 200 < a.weight) := by
  refine ⟨⟨_, _, allProjections_terminates W wk tdee⟩, ?_⟩
  intro fuel pts hpts
  obtain rfl := allProjections_some hpts
  -- Phase 1 runs at least once
  have hpos1 : 0 < count₁ W := by
    rw [count₁, phaseCount_spec (by norm_num)]
    simpa using hW
  obtain ⟨m, hm⟩ : ∃ m, count₁ W = m + 1 := ⟨count₁ W - 1, by omega⟩
  -- the running weight of the last Phase 1 iteration
  have hlast_gt : 200 < W - (m : ℚ) * (5 / 2) :=
    (phaseCount_spec (by norm_num) m).1 (by rw [← count₁, hm]; omega)
  have hw1 : weight₁ W = W - (m : ℚ) * (5 / 2) - 5 / 2 := by
    rw [weight₁, hm]
    push_cast
    ring
  have hw1_le : weight₁ W ≤ 200 := by
    have := (@phaseCount_spec 200 (5 / 2) W (by norm_num) (count₁ W)).not.1
      (by rw [← count₁]; exact lt_irrefl _)
    rw [weight₁]
    linarith
  -- Phase 2 runs at least once
  have hpos2 : 0 < count₂ W := by
    rw [count₂, phaseCount_spec (by norm_num)]
    rw [hw1]
    push_cast
    linarith
  have hne : phasePoints W tdee (19 / 10) 2 (weight₁ W) (mathCeil wk + (count₁ W : ℤ))
      (count₂ W) ≠ [] := by
    intro h
    have := congrArg List.length h
    rw [phasePoints_length] at this
    simp at this
    omega
  obtain ⟨b, post2, hL2⟩ := List.exists_cons_of_ne_nil hne
  have hb : b ∈ phasePoints W tdee (19 / 10) 2 (weight₁ W) (mathCeil wk + (count₁ W : ℤ))
      (count₂ W) := by rw [hL2]; simp
  refine ⟨phasePoints W tdee (5 / 2) 1 W (mathCeil wk) m,
    projectionPoint W tdee (5 / 2) 1 (W - (m : ℚ) * (5 / 2)) (mathCeil wk + (m : ℤ)), b,
    post2 ++ phasePoints W tdee (9 / 10) 3 (weight₂ W)
      (mathCeil wk + (count₁ W : ℤ) + (count₂ W : ℤ)) (count₃ W), ?_, rfl, ?_, ?_, ?_,
    phasePoints_phase hb, ?_, ?_⟩
  · rw [projectionOf, hL2, hm, phasePoints_succ]
    simp
  · intro q hq
    have hq' : q ∈ phasePoints W tdee (19 / 10) 2 (weight₁ W) (mathCeil wk + (count₁ W : ℤ))
          (count₂ W) ∨
        q ∈ phasePoints W tdee (9 / 10) 3 (weight₂ W)
          (mathCeil wk + (count₁ W : ℤ) + (count₂ W : ℤ)) (count₃ W) := by
      rw [hL2]
      simpa [List.mem_append, or_assoc] using hq
    rcases hq' with h | h
    · rw [phasePoints_phase h]; decide
    · rw [phasePoints_phase h]; decide
  · show (200 : ℚ) ≤ (mathRound ((W - (m : ℚ) * (5 / 2)) * 10) : ℚ) / 10
    have h1 : mathRound ((2000 : ℤ) : ℚ) ≤ mathRound ((W - (m : ℚ) * (5 / 2)) * 10) :=
      mathRound_mono (by push_cast; linarith)
    rw [mathRound_intCast] at h1
    have h2 : ((2000 : ℤ) : ℚ) ≤ (mathRound ((W - (m : ℚ) * (5 / 2)) * 10) : ℚ) := by
      exact_mod_cast h1
    push_cast at h2
    linarith
  · show (mathRound ((W - (m : ℚ) * (5 / 2)) * 10) : ℚ) / 10 ≤ 405 / 2
    have h1 : mathRound ((W - (m : ℚ) * (5 / 2)) * 10) ≤ mathRound ((2025 : ℤ) : ℚ) :=
      mathRound_mono (by push_cast; linarith)
    rw [mathRound_intCast] at h1
    have h2 : (mathRound ((W - (m : ℚ) * (5 / 2)) * 10) : ℚ) ≤ ((2025 : ℤ) : ℚ) := by
      exact_mod_cast h1
    push_cast at h2
    linarith
  · obtain ⟨j, -, rfl⟩ := phasePoints_mem hb
    show (mathRound ((weight₁ W - (j : ℚ) * (19 / 10)) * 10) : ℚ) / 10 ≤ 200
    have hj : (0 : ℚ) ≤ (j : ℚ) := Nat.cast_nonneg j
    have h1 : mathRound ((weight₁ W - (j : ℚ) * (19 / 10)) * 10) ≤
        mathRound ((2000 : ℤ) : ℚ) :=
      mathRound_mono (by push_cast; nlinarith)
    rw [mathRound_intCast] at h1
    have h2 : (mathRound ((weight₁ W - (j : ℚ) * (19 / 10)) * 10) : ℚ) ≤ ((2000 : ℤ) : ℚ) := by
      exact_mod_cast h1
    push_cast at h2
    linarith
  · rintro ⟨z, hz⟩
    show (200 : ℚ) < (mathRound ((W - (m : ℚ) * (5 / 2)) * 10) : ℚ) / 10
    have he : (W - (m : ℚ) * (5 / 2)) * 10 = ((z - 25 * (m : ℤ) : ℤ) : ℚ) := by
      push_cast
      rw [← hz]
      ring
    rw [he, mathRound_intCast, ← he]
    linarith

/-- C4, amended, at the starting weights 227 and 213. -/
theorem phase1_boundary_227_213 :
    ((200 : ℚ) < 227 ∧ (200 : ℚ) < 213) ∧
    (∀ (fuel : ℕ) (pts : List ProjectionPoint), allProjections fuel 227 0 2000 = some pts →
      ∃ (pre : List ProjectionPoint) (a b : ProjectionPoint) (post : List ProjectionPoint),
        pts = pre ++ a :: b :: post ∧ a.phase = 1 ∧ (∀ q ∈ b :: post, q.phase ≠ 1) ∧
        200 ≤ a.weight ∧ a.weight ≤ 405 / 2 ∧ b.phase = 2 ∧ b.weight ≤ 200 ∧
        ((∃ z : ℤ, (227 : ℚ) * 10 = z) → 200 < a.weight)) ∧
    (∀ (fuel : ℕ) (pts : List ProjectionPoint),
      allProjections fuel 213 (133 / 10) 2450 = some pts →
      ∃ (pre : List ProjectionPoint) (a b : ProjectionPoint) (post : List ProjectionPoint),
        pts = pre ++ a :: b :: post ∧ a.phase = 1 ∧ (∀ q ∈ b :: post, q.phase ≠ 1) ∧
        200 ≤ a.weight ∧ a.weight ≤ 405 / 2 ∧ b.phase = 2 ∧ b.weight ≤ 200 ∧
        ((∃ z : ℤ, (213 : ℚ) * 10 = z) → 200 < a.weight)) :=
  ⟨⟨by norm_num, by norm_num⟩, (phase1_boundary 227 0 2000 (by norm_num)).2,
    (phase1_boundary 213 (133 / 10) 2450 (by norm_num)).2⟩

/-! ## The estimator: too few observations -/

/-- C6: on a series of fewer than 2 observations `calculateTDEEFromData`
returns `null`, whatever `dailyCalories` and `weeksBack` are. -/
theorem estimator_null_of_fewer_than_two (weightData : List Observation)
    (dailyCalories weeksBack : ℚ) (h : weightData.length < 2) :
    calculateTDEEFromData weightData dailyCalories weeksBack = none := by
  rcases weightData with _ | ⟨a, _ | ⟨b, rest⟩⟩
  · rfl
  · rfl
  · simp only [List.length_cons] at h
    omega

/-- C6 on the single observation `{week 1, weight 100}`. -/
theorem estimator_null_of_fewer_than_two_single :
    ([({ weekNumber := 1, weight := 100 } : Observation)].length < 2) ∧
      calculateTDEEFromData [{ weekNumber := 1, weight := 100 }] 1200 4 = none :=
  ⟨by decide, estimator_null_of_fewer_than_two _ 1200 4 (by decide)⟩

/-! ## The estimator: window fallback -/

/-- C7: on a series of at least 2 observations none of which has
`weekNumber <= latest.weekNumber - weeksBack`, and whose first observation is
strictly earlier than its last, `calculateTDEEFromData` does not return `null`:
its four fields are computed from the first and the last observation. -/
theorem estimator_window_fallback (weightData : List Observation)
    (first latest : Observation) (dailyCalories weeksBack : ℚ)
    (hfirst : weightData.head? = some first) (hlast : weightData.getLast? = some latest)
    (hlen : 2 ≤ weightData.length)
    (hnone : ∀ o ∈ weightData, ¬ o.weekNumber ≤ latest.weekNumber - weeksBack)
    (hlt : first.weekNumber < latest.weekNumber) :
    calculateTDEEFromData weightData dailyCalories weeksBack =
      some { tdee := mathRound (dailyCalories +
               (first.weight - latest.weight) * 3500 /
                 ((latest.weekNumber - first.weekNumber) * 7))
             dailyDeficit := mathRound ((first.weight - latest.weight) * 3500 /
                 ((latest.weekNumber - first.weekNumber) * 7))
             weeklyLossRate := (mathRound ((first.weight - latest.weight) /
                 (latest.weekNumber - first.weekNumber) * 10) : ℚ) / 10
             weeksAnalyzed :=
               (mathRound ((latest.weekNumber - first.weekNumber) * 10) : ℚ) / 10 } := by
  have hfind : findEarlierPoint weightData (latest.weekNumber - weeksBack) first = first := by
    unfold findEarlierPoint
    rw [List.find?_eq_none.2]
    · rfl
    · intro o ho
      simpa using hnone o (List.mem_reverse.1 ho)
  rw [calculateTDEEFromData_unfold dailyCalories weeksBack hfirst hlast hlen, hfind,
    if_neg (by linarith)]
  rfl

/-- C7 on `[{week 0, 255}, {week 1, 250}]` with `dailyCalories = 1200` and
`weeksBack = 4`: `tdee = 3700`, `dailyDeficit = 2500`, `weeklyLossRate = 5`,
`weeksAnalyzed = 1`. -/
theorem estimator_window_fallback_two_points :
    (∀ o ∈ [({ weekNumber := 0, weight := 255 } : Observation),
        { weekNumber := 1, weight := 250 }], ¬ o.weekNumber ≤ (1 : ℚ) - 4) ∧
    calculateTDEEFromData [{ weekNumber := 0, weight := 255 }, { weekNumber := 1, weight := 250 }]
        1200 4 =
      some { tdee := 3700, dailyDeficit := 2500, weeklyLossRate := 5, weeksAnalyzed := 1 } :=
  ⟨by decide!,
   (estimator_window_fallback
      [{ weekNumber := 0, weight := 255 }, { weekNumber := 1, weight := 250 }]
      { weekNumber := 0, weight := 255 } { weekNumber := 1, weight := 250 } 1200 4
      rfl rfl (by decide) (by decide!) (by decide!)).trans (by decide!)⟩

/-! ## The weekly merge: rows -/

/-- C9, as stated, fails: the projection from 150.5 lb that starts at week `-3`
(a table whose only weigh-in is `8/20`, 150.5 lb) has one point, at week `-3`,
and the merged series has no rows, not `finalWeek + 1 = -2` of them. -/
theorem merge_rows_not_final_week_plus_one :
    ∃ (pts : List ProjectionPoint) (p : ProjectionPoint) (rows : List WeeklyRow),
      allProjections 1 (301 / 2) (-3) 2000 = some pts ∧ pts.getLast? = some p ∧
      completeWeeklyData 1 (actualDataOf [⟨8, 20, 301 / 2⟩]) pts = some rows ∧
      p.weekNumber = -3 ∧ rows = [] ∧ (rows.length : ℚ) ≠ p.weekNumber + 1 := by
  refine ⟨[ProjectionPoint.mk (-3) (301 / 2) 3 2000 1550 450 (9 / 10)],
    ProjectionPoint.mk (-3) (301 / 2) 3 2000 1550 450 (9 / 10), [],
    by decide!, rfl, by decide!, rfl, rfl, ?_⟩
  norm_num

/-- C9, amended: for every observation table and every projection of the phase
loops with at least one point the merge loop terminates and the row at
position `i` has `weekNumber = i`; when the last projection point has
`weekNumber >= 1` the merged series has exactly `finalWeek + 1` rows, where
`finalWeek` is that `weekNumber`; when it is negative the series has no rows. -/
theorem merge_row_count (observations : List Observation) (W wk tdee : ℚ) (fuel : ℕ)
    (pts : List ProjectionPoint) (p : ProjectionPoint)
    (hpts : allProjections fuel W wk tdee = some pts) (hlast : pts.getLast? = some p) :
    (∃ (fuel' : ℕ) (rows : List WeeklyRow),
      completeWeeklyData fuel' observations pts = some rows) ∧
    ∀ (fuel' : ℕ) (rows : List WeeklyRow),
      completeWeeklyData fuel' observations pts = some rows →
        (∀ (i : ℕ) (hi : i < rows.length), (rows.get ⟨i, hi⟩).weekNumber = i) ∧
        (1 ≤ p.weekNumber → (rows.length : ℚ) = p.weekNumber + 1) ∧
        (p.weekNumber < 0 → rows = []) := by
  refine ⟨⟨_, _, completeWeeklyData_eq observations pts _ (le_refl _)⟩, ?_⟩
  intro fuel' rows hrows
  obtain rfl := completeWeeklyData_some hrows
  obtain rfl := allProjections_some hpts
  obtain ⟨z, hz⟩ := projectionOf_week_int (List.mem_of_getLast?_eq_some hlast)
  have hF : finalWeek (projectionOf W wk tdee) =
      if p.weekNumber = 0 then 60 else p.weekNumber := by
    simp only [finalWeek, hlast]
  refine ⟨fun i hi => weeklyRows_get _ _ _ i hi, ?_, ?_⟩
  · intro h1
    have hz1 : (1 : ℤ) ≤ z := by
      rw [hz] at h1
      exact_mod_cast h1
    have hne : p.weekNumber ≠ 0 := by
      rw [hz]
      exact_mod_cast (by omega : z ≠ 0)
    rw [weeklyRows_length, hF, if_neg hne, hz, rowCount, Int.floor_intCast]
    have : (((z + 1).toNat : ℕ) : ℤ) = z + 1 := Int.toNat_of_nonneg (by omega)
    exact_mod_cast this
  · intro hneg
    have hz0 : z < 0 := by
      rw [hz] at hneg
      exact_mod_cast hneg
    have hne : p.weekNumber ≠ 0 := ne_of_lt hneg
    have h0 : rowCount (finalWeek (projectionOf W wk tdee)) = 0 := by
      rw [hF, if_neg hne, hz, rowCount, Int.floor_intCast]
      exact Int.toNat_of_nonpos (by omega)
    rw [h0]
    rfl

/-- C9 on the built-in table: 57 rows, the row at position `i` being week `i`. -/
theorem merge_row_count_builtin :
    (∃ (fuel : ℕ) (rows : List WeeklyRow), builtinWeeklyData fuel = some rows) ∧
    ∀ (fuel : ℕ) (rows : List WeeklyRow), builtinWeeklyData fuel = some rows →
      rows.length = 57 ∧ ∀ (i : ℕ) (hi : i < rows.length), (rows.get ⟨i, hi⟩).weekNumber = i := by
  have hp := allProjections_terminates currentWeight currentWeekNum currentTDEE
  have key := merge_row_count actualData currentWeight currentWeekNum currentTDEE _ _ _ hp
    builtin_projectionOf_last
  constructor
  · refine ⟨57, (List.range (rowCount (finalWeek
      (projectionOf currentWeight currentWeekNum currentTDEE)))).map
        (weeklyRow actualData (projectionOf currentWeight currentWeekNum currentTDEE)), ?_⟩
    unfold builtinWeeklyData builtinProjections
    have h57 : allProjections 57 currentWeight currentWeekNum currentTDEE =
        some (projectionOf currentWeight currentWeekNum currentTDEE) := by
      unfold allProjections at hp ⊢
      obtain ⟨t, ht, hpts⟩ := Option.map_eq_some'.1 hp
      rw [runProjection_mono (show _ ≤ 57 by decide!) ht]
      exact congrArg some hpts
    rw [h57, Option.some_bind]
    exact completeWeeklyData_eq _ _ 57 (le_of_eq builtin_rows_eval.1)
  · intro fuel rows hrows
    unfold builtinWeeklyData builtinProjections at hrows
    obtain ⟨pts, hpts, hrows⟩ := Option.bind_eq_some.1 hrows
    obtain rfl := allProjections_some hpts
    obtain ⟨hidx, hlen, -⟩ := key.2 fuel rows hrows
    refine ⟨?_, hidx⟩
    have h := hlen (by norm_num)
    have h' : (rows.length : ℚ) = ((57 : ℕ) : ℚ) := by rw [h]; norm_num
    exact_mod_cast h'

/-! ## The weekly merge: fields of a row -/

/-- C10: in every row of the merged series, of week `w`: `weight` is present
if and only if some observation has `|weekNumber - w| < 0.5`, and is then the
weight of the first such observation in table order; `projected` is present if
and only if some projection point has `weekNumber` exactly `w`, and is then
the weight of the first such point, which is the weight of that point when
only one point sits at week `w`. -/
theorem merge_row_fields (observations : List Observation)
    (projections : List ProjectionPoint) (fuel : ℕ) (rows : List WeeklyRow)
    (h : completeWeeklyData fuel observations projections = some rows) :
    ∀ r ∈ rows,
      (r.weight.isSome = true ↔
        ∃ o ∈ observations, |o.weekNumber - (r.weekNumber : ℚ)| < 1 / 2) ∧
      (∀ (pre : List Observation) (o : Observation) (post : List Observation),
        observations = pre ++ o :: post → |o.weekNumber - (r.weekNumber : ℚ)| < 1 / 2 →
        (∀ o' ∈ pre, ¬ |o'.weekNumber - (r.weekNumber : ℚ)| < 1 / 2) →
        r.weight = some o.weight) ∧
      (r.projected.isSome = true ↔
        ∃ q ∈ projections, q.weekNumber = (r.weekNumber : ℚ)) ∧
      (∀ (pre : List ProjectionPoint) (q : ProjectionPoint) (post : List ProjectionPoint),
        projections = pre ++ q :: post → q.weekNumber = (r.weekNumber : ℚ) →
        (∀ q' ∈ pre, q'.weekNumber ≠ (r.weekNumber : ℚ)) →
        r.projected = some q.weight) ∧
      (∀ q ∈ projections, q.weekNumber = (r.weekNumber : ℚ) →
        (∀ q' ∈ projections, q'.weekNumber = (r.weekNumber : ℚ) → q' = q) →
        r.projected = some q.weight) := by
  obtain rfl := completeWeeklyData_some h
  intro r hr
  have hrow := weeklyRows_mem hr
  refine ⟨?_, ?_, ?_, ?_, ?_⟩
  · rw [hrow]
    simp [weeklyRow]
  · intro pre o post hsplit ho hpre
    rw [hrow, hsplit]
    simp only [weeklyRow]
    rw [find?_first _ pre o post (by simpa using ho) (fun y hy => by simpa using hpre y hy)]
    rfl
  · rw [hrow]
    simp [weeklyRow]
  · intro pre q post hsplit hq hpre
    rw [hrow, hsplit]
    simp only [weeklyRow]
    rw [find?_first _ pre q post (by simpa using hq) (fun y hy => by simpa using hpre y hy)]
    rfl
  · intro q hq hweek huniq
    rw [hrow]
    simp only [weeklyRow]
    cases hfind : projections.find? (fun d => decide (d.weekNumber = (r.weekNumber : ℚ))) with
    | none =>
      have := List.find?_eq_none.1 hfind q hq
      simp [hweek] at this
    | some q₀ =>
      have h1 : q₀.weekNumber = (r.weekNumber : ℚ) := by
        simpa using List.find?_some hfind
      rw [huniq q₀ (List.mem_of_find?_eq_some hfind) h1]
      rfl

/-- C10 on the built-in table: the rows obey the rule, and `projected` is
absent in the rows of weeks 0 to 13 and present in every row of weeks 14 to 56. -/
theorem merge_row_fields_builtin :
    completeWeeklyData 57 actualData (projectionOf currentWeight currentWeekNum currentTDEE) =
      some ((List.range 57).map
        (weeklyRow actualData (projectionOf currentWeight currentWeekNum currentTDEE))) ∧
    (∀ r ∈ (List.range 57).map
        (weeklyRow actualData (projectionOf currentWeight currentWeekNum currentTDEE)),
      (r.weekNumber ≤ 13 → r.projected = none) ∧
      (14 ≤ r.weekNumber → r.projected.isSome = true) ∧
      (r.weight.isSome = true ↔
        ∃ o ∈ actualData, |o.weekNumber - (r.weekNumber : ℚ)| < 1 / 2) ∧
      (r.projected.isSome = true ↔
        ∃ q ∈ projectionOf currentWeight currentWeekNum currentTDEE,
          q.weekNumber = (r.weekNumber : ℚ))) := by
  have hrun : completeWeeklyData 57 actualData
      (projectionOf currentWeight currentWeekNum currentTDEE) =
      some ((List.range 57).map
        (weeklyRow actualData (projectionOf currentWeight currentWeekNum currentTDEE))) := by
    have := completeWeeklyData_eq actualData
      (projectionOf currentWeight currentWeekNum currentTDEE) 57 (le_of_eq builtin_rows_eval.1)
    rwa [builtin_rows_eval.1] at this
  refine ⟨hrun, fun r hr => ?_⟩
  obtain ⟨h1, -, h3, -, -⟩ := merge_row_fields actualData _ 57 _ hrun r hr
  exact ⟨(builtin_rows_eval.2 r hr).1, (builtin_rows_eval.2 r hr).2, h1, h3⟩

/-! ## The fields of a projection point -/

/-- C11: the loops terminate, and every projection point, in whichever phase it
is pushed at the running weight `w`, has `tdee = round(baselineTdee - 22 *
(currentWeight - w))` with the loss measured from the projection start, has
`deficit` 1250, 950 or 450 in phase 1, 2 or 3, and has `dailyCalories = tdee -
deficit`; the first point's `tdee` is the baseline and `tdee` never increases
along the sequence. -/
theorem projection_tdee_rule (W wk : ℚ) (B : ℤ) :
    (∃ (fuel : ℕ) (pts : List ProjectionPoint), allProjections fuel W wk B = some pts) ∧
    ∀ (fuel : ℕ) (pts : List ProjectionPoint), allProjections fuel W wk B = some pts →
      AlongRun (fun w p =>
          p.weight = (mathRound (w * 10) : ℚ) / 10 ∧
          p.tdee = mathRound ((B : ℚ) - 22 * (W - w)) ∧
          (p.phase = 1 → p.deficit = 1250) ∧
          (p.phase = 2 → p.deficit = 950) ∧
          (p.phase = 3 → p.deficit = 450) ∧
          p.dailyCalories = p.tdee - p.deficit) W pts ∧
      (∀ p, pts.head? = some p → p.tdee = B) ∧
      pts.Chain' (fun a b => b.tdee ≤ a.tdee) := by
  refine ⟨⟨_, _, allProjections_terminates W wk B⟩, ?_⟩
  intro fuel pts hpts
  obtain rfl := allProjections_some hpts
  have r1 := pointRule_projectionPoint W B (5 / 2) 1 1250 (by norm_num)
    (fun _ => rfl) (by decide) (by decide)
  have r2 := pointRule_projectionPoint W B (19 / 10) 2 950 (by norm_num)
    (by decide) (fun _ => rfl) (by decide)
  have r3 := pointRule_projectionPoint W B (9 / 10) 3 450 (by norm_num)
    (by decide) (by decide) (fun _ => rfl)
  have hrun : AlongRun (PointRule W B) W (projectionOf W wk B) :=
    AlongRun_projectionOf _ W wk B r1 r2 r3
  have hrun' : AlongRun (fun w p => PointRule W B w p ∧ 0 ≤ p.weeklyLoss) W
      (projectionOf W wk B) :=
    AlongRun_projectionOf _ W wk B
      (fun w k => ⟨r1 w k, by simp only [projectionPoint]; norm_num⟩)
      (fun w k => ⟨r2 w k, by simp only [projectionPoint]; norm_num⟩)
      (fun w k => ⟨r3 w k, by simp only [projectionPoint]; norm_num⟩)
  obtain ⟨hhead, hchain⟩ := AlongRun_tdee W B _ W hrun'
  refine ⟨hrun, fun p hp => ?_, hchain⟩
  rw [hhead p hp, sub_self, mul_zero, sub_zero, mathRound_intCast]

/-! ## The weekly merge: which weigh-in a row shows -/

/-- C14, as stated, fails on the built-in table: the row of week 8 carries the
weight 227 of the weigh-in of week 7.6, the first within half a week, while the
weigh-in of week 8.1 is closer; and three weigh-ins lie within half a week of
week 8. -/
theorem builtin_row_not_closest :
    ∃ (rows : List WeeklyRow) (r : WeeklyRow) (o o' : Observation),
      builtinWeeklyData 57 = some rows ∧ r ∈ rows ∧ r.weekNumber = 8 ∧
      actualData.find? (fun d => decide (|d.weekNumber - (r.weekNumber : ℚ)| < 1 / 2)) =
        some o ∧
      r.weight = some o.weight ∧ o' ∈ actualData ∧
      |o'.weekNumber - (r.weekNumber : ℚ)| < |o.weekNumber - (r.weekNumber : ℚ)| ∧
      1 < (actualData.filter
        (fun d => decide (|d.weekNumber - (r.weekNumber : ℚ)| < 1 / 2))).length := by
  refine ⟨_, weeklyRow actualData (projectionOf currentWeight currentWeekNum currentTDEE) 8,
    { weekNumber := 38 / 5, weight := 227 }, { weekNumber := 81 / 10, weight := 226 },
    builtinWeeklyData_eq, ?_, rfl, builtin_week_eight_eval.1, builtin_week_eight_eval.2.2.2,
    builtin_week_eight_eval.2.1, ?_, ?_⟩
  · exact List.mem_map.2 ⟨8, List.mem_range.2 (by norm_num), rfl⟩
  · show |(81 / 10 : ℚ) - ((8 : ℕ) : ℚ)| < |(38 / 5 : ℚ) - ((8 : ℕ) : ℚ)|
    norm_num [abs_lt, abs_of_neg, abs_of_pos]
  · show 1 < (actualData.filter
        (fun d => decide (|d.weekNumber - ((8 : ℕ) : ℚ)| < 1 / 2))).length
    rw [builtin_week_eight_eval.2.2.1]
    norm_num

/-- C14, amended: the merge of the built-in table terminates, and in every row
that carries an actual weight, that weight belongs to the first weigh-in in
table order within half a week of the row's week; this weigh-in is a closest
one among all weigh-ins in every such row except those of weeks 6, 8 and 11;
at most three weigh-ins lie within half a week of a row's week. -/
theorem builtin_row_first_match :
    (∃ (fuel : ℕ) (rows : List WeeklyRow), builtinWeeklyData fuel = some rows) ∧
    ∀ (fuel : ℕ) (rows : List WeeklyRow), builtinWeeklyData fuel = some rows →
      ∀ r ∈ rows,
        (actualData.filter
          (fun d => decide (|d.weekNumber - (r.weekNumber : ℚ)| < 1 / 2))).length ≤ 3 ∧
        ∀ wt, r.weight = some wt →
          ∃ (pre : List Observation) (o : Observation) (post : List Observation),
            actualData = pre ++ o :: post ∧ o.weight = wt ∧
            |o.weekNumber - (r.weekNumber : ℚ)| < 1 / 2 ∧
            (∀ o' ∈ pre, ¬ |o'.weekNumber - (r.weekNumber : ℚ)| < 1 / 2) ∧
            (r.weekNumber ≠ 6 → r.weekNumber ≠ 8 → r.weekNumber ≠ 11 →
              ∀ o' ∈ actualData,
                |o.weekNumber - (r.weekNumber : ℚ)| ≤ |o'.weekNumber - (r.weekNumber : ℚ)|) := by
  refine ⟨⟨57, _, builtinWeeklyData_eq⟩, ?_⟩
  intro fuel rows hrows
  obtain rfl := builtinWeeklyData_some hrows
  intro r hr
  obtain ⟨k, hk, rfl⟩ := List.mem_map.1 hr
  have hev := builtin_first_match_eval k hk
  show (actualData.filter (fun d => decide (|d.weekNumber - (k : ℚ)| < 1 / 2))).length ≤ 3 ∧
    ∀ wt, (actualData.find? (fun d => decide (|d.weekNumber - (k : ℚ)| < 1 / 2))).map
        Observation.weight = some wt → _
  cases hfind : actualData.find? (fun d => decide (|d.weekNumber - (k : ℚ)| < 1 / 2)) with
  | none =>
    have hnone := List.find?_eq_none.1 hfind
    refine ⟨?_, fun wt hwt => by simp at hwt⟩
    have : actualData.filter (fun d => decide (|d.weekNumber - (k : ℚ)| < 1 / 2)) = [] :=
      List.filter_eq_nil_iff.2 hnone
    rw [this]
    simp
  | some o =>
    rw [hfind] at hev
    simp only [Option.all_some, decide_eq_true_eq] at hev
    obtain ⟨hclose, hcount⟩ := hev
    refine ⟨hcount, fun wt hwt => ?_⟩
    simp only [Option.map_some', Option.some.injEq] at hwt
    obtain ⟨ho, pre, post, hsplit, hpre⟩ := List.find?_eq_some.1 hfind
    refine ⟨pre, o, post, hsplit, hwt, by simpa using ho, fun o' ho' => ?_, ?_⟩
    · simpa using hpre o' ho'
    · intro h6 h8 h11
      show ∀ o' ∈ actualData, |o.weekNumber - (k : ℚ)| ≤ |o'.weekNumber - (k : ℚ)|
      have h6' : k ≠ 6 := h6
      have h8' : k ≠ 8 := h8
      have h11' : k ≠ 11 := h11
      rcases hclose with h | h | h | h
      · exact absurd h h6'
      · exact absurd h h8'
      · exact absurd h h11'
      · exact h

/-! ## The phase cards against the projection -/

/-- C15, as stated, fails on the built-in table: the Phase 2 card shows
`ceil(30 / 1.9) = 16` weeks where the projector emits 15 points of phase 2, and
the Phase 3 card `ceil(20 / 0.9) = 23` weeks where it emits 22 points. -/
theorem builtin_durations_differ_from_counts :
    ∃ pts : List ProjectionPoint, builtinProjections 43 = some pts ∧
      estDuration₂ ≠ ((pts.countP fun p => decide (p.phase = 2) : ℕ) : ℤ) ∧
      estDuration₃ ≠ ((pts.countP fun p => decide (p.phase = 3) : ℕ) : ℤ) := by
  have hp := allProjections_terminates currentWeight currentWeekNum currentTDEE
  have h43 : builtinProjections 43 =
      some (projectionOf currentWeight currentWeekNum currentTDEE) := by
    unfold builtinProjections allProjections at hp ⊢
    obtain ⟨t, ht, hpts⟩ := Option.map_eq_some'.1 hp
    rw [runProjection_mono (show _ ≤ 43 by decide!) ht]
    exact congrArg some hpts
  refine ⟨_, h43, ?_, ?_⟩
  · rw [estDuration_eval.2.1, builtin_phase_counts_eval.2.1]
    decide
  · rw [estDuration_eval.2.2, builtin_phase_counts_eval.2.2]
    decide

/-- C15, amended: on the built-in table the loops terminate; the Phase 1 card
shows 6 weeks, the number of projection points of phase 1; the Phase 2 and
Phase 3 cards show 16 and 23 weeks, one more than the 15 and 22 projection
points of phases 2 and 3. -/
theorem builtin_durations_and_counts :
    (∃ (fuel : ℕ) (pts : List ProjectionPoint), builtinProjections fuel = some pts) ∧
    ∀ (fuel : ℕ) (pts : List ProjectionPoint), builtinProjections fuel = some pts →
      estDuration₁ currentWeight = 6 ∧
      estDuration₁ currentWeight = ((pts.countP fun p => decide (p.phase = 1) : ℕ) : ℤ) ∧
      estDuration₂ = 16 ∧
      estDuration₂ = ((pts.countP fun p => decide (p.phase = 2) : ℕ) : ℤ) + 1 ∧
      estDuration₃ = 23 ∧
      estDuration₃ = ((pts.countP fun p => decide (p.phase = 3) : ℕ) : ℤ) + 1 := by
  refine ⟨⟨_, _, allProjections_terminates currentWeight currentWeekNum currentTDEE⟩, ?_⟩
  intro fuel pts hpts
  obtain rfl := allProjections_some hpts
  obtain ⟨c1, c2, c3⟩ := builtin_phase_counts_eval
  obtain ⟨d1, d2, d3⟩ := estDuration_eval
  rw [c1, c2, c3, d1, d2, d3]
  exact ⟨rfl, rfl, rfl, rfl, rfl, rfl⟩

/-! ## The baseline handed to the projector -/

/-- C16, as stated, fails: on `[{week 0, 208}, {week 5, 200}]` the estimator
returns a result, with `tdee = 2000`, so the baseline is 2000 although the
estimator did not return `null`. -/
theorem baseline_2000_without_null :
    calculateTDEEFromData
        [{ weekNumber := 0, weight := 208 }, { weekNumber := 5, weight := 200 }] 1200 4 =
      some { tdee := 2000, dailyDeficit := 800, weeklyLossRate := 8 / 5, weeksAnalyzed := 5 } ∧
    ¬ (currentTDEEOf (calculateTDEEFromData
          [{ weekNumber := 0, weight := 208 }, { weekNumber := 5, weight := 200 }] 1200 4) =
        2000 ↔
      calculateTDEEFromData
          [{ weekNumber := 0, weight := 208 }, { weekNumber := 5, weight := 200 }] 1200 4 =
        none) := by
  have he : calculateTDEEFromData
      [{ weekNumber := 0, weight := 208 }, { weekNumber := 5, weight := 200 }] 1200 4 =
      some { tdee := 2000, dailyDeficit := 800, weeklyLossRate := 8 / 5, weeksAnalyzed := 5 } := by
    decide!
  refine ⟨he, ?_⟩
  rw [he]
  intro h
  have := h.1 (by decide)
  exact absurd this (by simp)

/-- C16, amended: the baseline handed to the projector is the fallback 2000
when `calculateTDEEFromData` returns `null`; whenever the estimator returns a
result whose `tdee` is not 0, the baseline equals that result's `tdee`; so a
baseline other than 2000 always is the `tdee` of a returned result. -/
theorem baseline_rule (weightData : List Observation) (dailyCalories weeksBack : ℚ) :
    (calculateTDEEFromData weightData dailyCalories weeksBack = none →
      currentTDEEOf (calculateTDEEFromData weightData dailyCalories weeksBack) = 2000) ∧
    (∀ r : TdeeEstimate,
      calculateTDEEFromData weightData dailyCalories weeksBack = some r → r.tdee ≠ 0 →
      currentTDEEOf (calculateTDEEFromData weightData dailyCalories weeksBack) = r.tdee) ∧
    (currentTDEEOf (calculateTDEEFromData weightData dailyCalories weeksBack) ≠ 2000 →
      ∃ r : TdeeEstimate,
        calculateTDEEFromData weightData dailyCalories weeksBack = some r ∧
        currentTDEEOf (calculateTDEEFromData weightData dailyCalories weeksBack) = r.tdee) := by
  cases h : calculateTDEEFromData weightData dailyCalories weeksBack with
  | none => exact ⟨fun _ => rfl, fun r hr => by simp at hr, fun hne => absurd rfl hne⟩
  | some r₀ =>
    refine ⟨fun h0 => by simp at h0, fun r hr hne => ?_, fun hne => ⟨r₀, rfl, ?_⟩⟩
    · obtain rfl := Option.some.inj hr
      simp only [currentTDEEOf, if_neg hne]
    · by_cases hz : r₀.tdee = 0
      · exact absurd (by simp only [currentTDEEOf, if_pos hz]) hne
      · simp only [currentTDEEOf, if_neg hz]

/-- C16, amended, on the built-in table: the estimator returns `tdee = 2450`,
which is the baseline handed to the projector. -/
theorem baseline_rule_builtin :
    currentTDEEOf (calculateTDEEFromData actualData 1200 4) = 2450 ∧ currentTDEE = 2450 :=
  ⟨(baseline_rule actualData 1200 4).2.1
      { tdee := 2450, dailyDeficit := 1250, weeklyLossRate := 5 / 2, weeksAnalyzed := 4 }
      tdeeData_eval (by decide),
   (baseline_rule actualData 1200 4).2.1
      { tdee := 2450, dailyDeficit := 1250, weeklyLossRate := 5 / 2, weeksAnalyzed := 4 }
      tdeeData_eval (by decide)⟩

/-! ## Week normalisation -/

/-- C17, as stated, fails: the last weigh-in of the built-in table (12/12,
213 lb) is not normalised to week 13.1. -/
theorem builtin_last_week_not_13_1 :
    actualData.getLast? = some { weekNumber := 133 / 10, weight := 213 } ∧
    calculateWeekNumber 12 12 ≠ 131 / 10 := by
  decide!

/-- C17, amended: `calculateWeekNumber` is the number of days since 10 September
2025 divided by 7 and rounded to one decimal: a whole number of tenths within
0.05 of the days divided by 7; on the built-in table it gives week 0 for the
first weigh-in (9/10, 255 lb) and week 13.3 for the last (12/12, 213 lb),
93 days after the first. -/
theorem week_normalisation :
    (∀ month day : ℕ,
      calculateWeekNumber month day =
        (mathRound (((dayOfYear2025 month day - dayOfYear2025 9 10 : ℤ) : ℚ) / 7 * 10) : ℚ) / 10 ∧
      (∃ k : ℤ, calculateWeekNumber month day * 10 = k) ∧
      |calculateWeekNumber month day -
        ((dayOfYear2025 month day - dayOfYear2025 9 10 : ℤ) : ℚ) / 7| ≤ 1 / 20) ∧
    dayOfYear2025 12 12 - dayOfYear2025 9 10 = 93 ∧
    actualData.head? = some { weekNumber := 0, weight := 255 } ∧
    actualData.getLast? = some { weekNumber := 133 / 10, weight := 213 } := by
  refine ⟨fun month day => ⟨rfl,
    ⟨mathRound (((dayOfYear2025 month day - dayOfYear2025 9 10 : ℤ) : ℚ) / 7 * 10), ?_⟩, ?_⟩,
    by decide!, by decide!, by decide!⟩
  · simp only [calculateWeekNumber]
    ring
  · simp only [calculateWeekNumber, mathRound]
    set x : ℚ := ((dayOfYear2025 month day - dayOfYear2025 9 10 : ℤ) : ℚ) / 7 * 10 with hx
    have h1 : (⌊x + 1 / 2⌋ : ℚ) ≤ x + 1 / 2 := Int.floor_le _
    have h2 : x + 1 / 2 < (⌊x + 1 / 2⌋ : ℚ) + 1 := Int.lt_floor_add_one _
    have hx' : ((dayOfYear2025 month day - dayOfYear2025 9 10 : ℤ) : ℚ) / 7 = x / 10 := by
      rw [hx]
      ring
    rw [hx', abs_le]
    constructor <;> linarith

/-! ## Weigh-ins and the rows of the merge -/

/-- C19: for every whole number `d >= 0` of days since the epoch the normalised
week number `round(10 * d / 7) / 10` never has the fractional part 0.5, and
`|weekNumber - w| < 0.5` holds for exactly one week `w`; so it does for the
week number of every date of 2025 from 10 September on, and every weigh-in of the
built-in table is within half a week of a row of the merged series. -/
theorem weigh_in_matches_one_week :
    (∀ d : ℕ,
      Int.fract ((mathRound ((d : ℚ) / 7 * 10) : ℚ) / 10) ≠ 1 / 2 ∧
      ∃! w : ℕ, |(mathRound ((d : ℚ) / 7 * 10) : ℚ) / 10 - (w : ℚ)| < 1 / 2) ∧
    (∀ month day : ℕ, dayOfYear2025 9 10 ≤ dayOfYear2025 month day →
      ∃! w : ℕ, |calculateWeekNumber month day - (w : ℚ)| < 1 / 2) ∧
    ∀ (fuel : ℕ) (rows : List WeeklyRow), builtinWeeklyData fuel = some rows →
      ∀ o ∈ actualData, ∃ r ∈ rows, |o.weekNumber - (r.weekNumber : ℚ)| < 1 / 2 := by
  have key : ∀ d : ℕ,
      Int.fract ((mathRound ((d : ℚ) / 7 * 10) : ℚ) / 10) ≠ 1 / 2 ∧
      ∃! w : ℕ, |(mathRound ((d : ℚ) / 7 * 10) : ℚ) / 10 - (w : ℚ)| < 1 / 2 := by
    intro d
    obtain ⟨q, c, hk, hc⟩ := round_days d
    have hc' : c = 0 ∨ c = 1 ∨ c = 3 ∨ c = 4 ∨ c = 6 ∨ c = 7 ∨ c = 9 := by
      simpa using hc
    have hval : (mathRound ((d : ℚ) / 7 * 10) : ℚ) / 10 = (q : ℚ) + (c : ℚ) / 10 := by
      rw [hk]
      push_cast
      ring
    rw [hval]
    constructor
    · intro hfr
      obtain ⟨-, -, z, hz⟩ := Int.fract_eq_iff.1 hfr
      have h10 : (10 * (q : ℤ) + c : ℤ) = 10 * z + 5 := by
        have : ((10 * (q : ℤ) + c : ℤ) : ℚ) = ((10 * z + 5 : ℤ) : ℚ) := by
          push_cast
          linarith
        exact_mod_cast this
      omega
    · have huniq : ∀ w₁ w₂ : ℕ, |(q : ℚ) + (c : ℚ) / 10 - (w₁ : ℚ)| < 1 / 2 →
          |(q : ℚ) + (c : ℚ) / 10 - (w₂ : ℚ)| < 1 / 2 → w₁ = w₂ := by
        intro w₁ w₂ h1 h2
        rw [abs_lt] at h1 h2
        have ha : ((w₁ : ℤ) : ℚ) < ((w₂ : ℤ) : ℚ) + 1 := by push_cast; linarith
        have hb : ((w₂ : ℤ) : ℚ) < ((w₁ : ℤ) : ℚ) + 1 := by push_cast; linarith
        have ha' : (w₁ : ℤ) < (w₂ : ℤ) + 1 := by exact_mod_cast ha
        have hb' : (w₂ : ℤ) < (w₁ : ℤ) + 1 := by exact_mod_cast hb
        omega
      have hcq : (c : ℚ) = 0 ∨ (c : ℚ) = 1 ∨ (c : ℚ) = 3 ∨ (c : ℚ) = 4 ∨ (c : ℚ) = 6 ∨
          (c : ℚ) = 7 ∨ (c : ℚ) = 9 := by
        rcases hc' with h | h | h | h | h | h | h <;> simp [h]
      have hex₀ : (c : ℚ) ≤ 4 → |(q : ℚ) + (c : ℚ) / 10 - ((q : ℕ) : ℚ)| < 1 / 2 := by
        intro hlow
        rw [abs_lt]
        rcases hcq with h | h | h | h | h | h | h <;> rw [h] at hlow ⊢ <;>
          constructor <;> norm_num at hlow ⊢
      have hex₁ : ¬ (c : ℚ) ≤ 4 → |(q : ℚ) + (c : ℚ) / 10 - ((q + 1 : ℕ) : ℚ)| < 1 / 2 := by
        intro hlow
        rw [abs_lt]
        push_cast
        rcases hcq with h | h | h | h | h | h | h <;> rw [h] at hlow ⊢ <;>
          constructor <;> norm_num at hlow ⊢
      by_cases hlow : (c : ℚ) ≤ 4
      · exact ⟨q, hex₀ hlow, fun w hw => huniq w q hw (hex₀ hlow)⟩
      · exact ⟨q + 1, hex₁ hlow, fun w hw => huniq w (q + 1) hw (hex₁ hlow)⟩
  refine ⟨key, fun month day hle => ?_, fun fuel rows hrows o ho => ?_⟩
  · obtain ⟨d, hd⟩ := Int.eq_ofNat_of_zero_le (sub_nonneg.2 hle)
    have := (key d).2
    simp only [calculateWeekNumber]
    rw [hd, Int.cast_natCast]
    exact this
  · obtain rfl := builtinWeeklyData_some hrows
    obtain ⟨k, hk, hlt⟩ := builtin_weigh_ins_covered_eval o ho
    exact ⟨_, List.mem_map.2 ⟨k, hk, rfl⟩, hlt⟩

/-! ## Binary64 rounding -/

theorem pow2_eq (e : ℤ) : Binary64.pow2 e = (2 : ℚ) ^ e := by
  unfold Binary64.pow2
  split_ifs with h
  · obtain ⟨n, rfl⟩ := Int.eq_ofNat_of_zero_le h
    simp
  · obtain ⟨n, hn⟩ := Int.eq_ofNat_of_zero_le (show 0 ≤ -e by omega)
    have he : e = -(n : ℤ) := by omega
    rw [hn, he]
    simp

theorem pow2_pos (e : ℤ) : 0 < Binary64.pow2 e := by
  rw [pow2_eq]
  exact zpow_pos (by norm_num) e

theorem bitLength_zero (fuel : ℕ) : Binary64.bitLength fuel 0 = 0 := by
  cases fuel <;> simp [Binary64.bitLength]

theorem bitLength_spec : ∀ (fuel n : ℕ), n < 2 ^ fuel →
    n < 2 ^ Binary64.bitLength fuel n ∧ (n ≠ 0 → 2 ^ Binary64.bitLength fuel n ≤ 2 * n) := by
  intro fuel
  induction fuel with
  | zero =>
    intro n hn
    have : n = 0 := by simpa using hn
    subst this
    simp [Binary64.bitLength]
  | succ fuel ih =>
    intro n hn
    by_cases h0 : n = 0
    · subst h0
      simp [Binary64.bitLength]
    · have hhalf : n / 2 < 2 ^ fuel := by
        rw [Nat.div_lt_iff_lt_mul (by norm_num)]
        rw [pow_succ] at hn
        exact hn
      obtain ⟨h1, h2⟩ := ih (n / 2) hhalf
      simp only [Binary64.bitLength, if_neg h0]
      constructor
      · rw [pow_succ]
        omega
      · intro _
        by_cases hz : n / 2 = 0
        · have hn1 : n = 1 := by omega
          rw [hz, bitLength_zero, hn1]
          norm_num
        · have := h2 hz
          rw [pow_succ]
          omega

/-- The binary exponent brackets a non-zero number between two powers of 2. -/
theorem expo_spec {x : ℚ} (hx : x ≠ 0) :
    (2 : ℚ) ^ Binary64.expo x ≤ |x| ∧ |x| < (2 : ℚ) ^ (Binary64.expo x + 1) := by
  have hn0 : x.num.natAbs ≠ 0 := by
    simpa [Int.natAbs_eq_zero] using hx
  have hd0 : x.den ≠ 0 := x.den_nz
  obtain ⟨n1, n2⟩ := bitLength_spec x.num.natAbs x.num.natAbs (Nat.lt_two_pow _)
  obtain ⟨d1, d2⟩ := bitLength_spec x.den x.den (Nat.lt_two_pow _)
  have n2' := n2 hn0
  have d2' := d2 hd0
  set a := Binary64.bitLength x.num.natAbs x.num.natAbs with ha
  set b := Binary64.bitLength x.den x.den with hb
  have habs : |x| = (x.num.natAbs : ℚ) / (x.den : ℚ) := by
    conv_lhs => rw [← Rat.num_div_den x]
    rw [abs_div, Nat.abs_cast]
    congr 1
    rw [Nat.cast_natAbs]
    simp
  have hdpos : (0 : ℚ) < (x.den : ℚ) := by exact_mod_cast Nat.pos_of_ne_zero hd0
  have hnq1 : (x.num.natAbs : ℚ) < (2 : ℚ) ^ a := by exact_mod_cast n1
  have hnq2 : (2 : ℚ) ^ a ≤ 2 * (x.num.natAbs : ℚ) := by exact_mod_cast n2'
  have hdq1 : (x.den : ℚ) < (2 : ℚ) ^ b := by exact_mod_cast d1
  have hdq2 : (2 : ℚ) ^ b ≤ 2 * (x.den : ℚ) := by exact_mod_cast d2'
  have h2 : (2 : ℚ) ≠ 0 := by norm_num
  have hk : (2 : ℚ) ^ ((a : ℤ) - (b : ℤ)) = (2 : ℚ) ^ a / (2 : ℚ) ^ b := by
    rw [zpow_sub₀ h2, zpow_natCast, zpow_natCast]
  have hbpos : (0 : ℚ) < (2 : ℚ) ^ b := by positivity
  have hapos : (0 : ℚ) < (2 : ℚ) ^ a := by positivity
  -- |x| lies strictly between 2^(k-1) and 2^(k+1)
  have hupper : |x| < (2 : ℚ) ^ ((a : ℤ) - (b : ℤ) + 1) := by
    rw [zpow_add_one₀ h2, hk, habs, div_lt_iff₀ hdpos]
    have : (2 : ℚ) ^ a / (2 : ℚ) ^ b * 2 * (x.den : ℚ) =
        (2 : ℚ) ^ a * (2 * (x.den : ℚ)) / (2 : ℚ) ^ b := by ring
    rw [this, lt_div_iff₀ hbpos]
    nlinarith
  have hlower : (2 : ℚ) ^ ((a : ℤ) - (b : ℤ) - 1) ≤ |x| := by
    rw [zpow_sub_one₀ h2, hk, habs, le_div_iff₀ hdpos]
    have : (2 : ℚ) ^ a / (2 : ℚ) ^ b * 2⁻¹ * (x.den : ℚ) =
        ((2 : ℚ) ^ a * (x.den : ℚ)) / (2 * (2 : ℚ) ^ b) := by
      field_simp
      ring
    rw [this, div_le_iff₀ (by positivity)]
    nlinarith
  unfold Binary64.expo
  rw [pow2_eq]
  split_ifs with hc
  · exact ⟨hc, hupper⟩
  · refine ⟨hlower, ?_⟩
    rw [sub_add_cancel]
    exact lt_of_not_le hc

theorem expo_le_of_lt {x : ℚ} (hx : x ≠ 0) {k : ℤ} (h : |x| < (2 : ℚ) ^ (k + 1)) :
    Binary64.expo x ≤ k := by
  have h1 := (expo_spec hx).1
  have h2 : (2 : ℚ) ^ Binary64.expo x < (2 : ℚ) ^ (k + 1) := lt_of_le_of_lt h1 h
  have := (zpow_lt_zpow_iff_right₀ (by norm_num : (1 : ℚ) < 2)).1 h2
  omega

theorem le_expo_of_le {x : ℚ} (hx : x ≠ 0) {k : ℤ} (h : (2 : ℚ) ^ k ≤ |x|) :
    k ≤ Binary64.expo x := by
  have h1 := (expo_spec hx).2
  have h2 : (2 : ℚ) ^ k < (2 : ℚ) ^ (Binary64.expo x + 1) := lt_of_le_of_lt h h1
  have := (zpow_lt_zpow_iff_right₀ (by norm_num : (1 : ℚ) < 2)).1 h2
  omega

theorem roundHalfEven_floor_le (t : ℚ) : ⌊t⌋ ≤ Binary64.roundHalfEven t := by
  unfold Binary64.roundHalfEven
  split_ifs <;> omega

theorem roundHalfEven_le_floor_succ (t : ℚ) : Binary64.roundHalfEven t ≤ ⌊t⌋ + 1 := by
  unfold Binary64.roundHalfEven
  split_ifs <;> omega

theorem roundHalfEven_le (t : ℚ) : (Binary64.roundHalfEven t : ℚ) ≤ t + 1 / 2 := by
  have h1 : (⌊t⌋ : ℚ) ≤ t := Int.floor_le t
  unfold Binary64.roundHalfEven
  split_ifs with a b c <;> push_cast <;> linarith

theorem roundHalfEven_ge (t : ℚ) : t - 1 / 2 ≤ (Binary64.roundHalfEven t : ℚ) := by
  have h2 : t < (⌊t⌋ : ℚ) + 1 := Int.lt_floor_add_one t
  unfold Binary64.roundHalfEven
  split_ifs with a b c <;> push_cast <;> linarith

theorem roundHalfEven_intCast (n : ℤ) : Binary64.roundHalfEven (n : ℚ) = n := by
  unfold Binary64.roundHalfEven
  rw [Int.floor_intCast, if_pos (by norm_num)]

theorem roundHalfEven_mono {t t' : ℚ} (h : t ≤ t') :
    Binary64.roundHalfEven t ≤ Binary64.roundHalfEven t' := by
  have hf : ⌊t⌋ ≤ ⌊t'⌋ := Int.floor_mono h
  rcases lt_or_eq_of_le hf with hlt | heq
  · have h1 := roundHalfEven_le_floor_succ t
    have h2 := roundHalfEven_floor_le t'
    omega
  · have hr : t - (⌊t⌋ : ℚ) ≤ t' - (⌊t⌋ : ℚ) := by linarith
    unfold Binary64.roundHalfEven
    rw [← heq]
    split_ifs <;> first | omega | (exfalso; linarith)

theorem zpow_split52 (e : ℤ) :
    (2 : ℚ) ^ e = ((2 ^ 52 : ℤ) : ℚ) * (2 : ℚ) ^ (e - 52) := by
  have h : ((2 ^ 52 : ℤ) : ℚ) = (2 : ℚ) ^ (52 : ℤ) := by norm_num
  rw [h, ← zpow_add₀ (by norm_num : (2 : ℚ) ≠ 0)]
  congr 1
  omega

theorem zpow_split53 (e : ℤ) :
    (2 : ℚ) ^ (e + 1) = ((2 ^ 53 : ℤ) : ℚ) * (2 : ℚ) ^ (e - 52) := by
  have h : ((2 ^ 53 : ℤ) : ℚ) = (2 : ℚ) ^ (53 : ℤ) := by norm_num
  rw [h, ← zpow_add₀ (by norm_num : (2 : ℚ) ≠ 0)]
  congr 1
  omega

/-- For `x > 0` the significand `x / 2 ^ (e - 52)` lies in `[2 ^ 52, 2 ^ 53)`. -/
theorem significand_bounds {x : ℚ} (hx : 0 < x) :
    ((2 ^ 52 : ℤ) : ℚ) ≤ x / (2 : ℚ) ^ (Binary64.expo x - 52) ∧
    x / (2 : ℚ) ^ (Binary64.expo x - 52) < ((2 ^ 53 : ℤ) : ℚ) := by
  obtain ⟨h1, h2⟩ := expo_spec hx.ne'
  rw [abs_of_pos hx] at h1 h2
  have hU : (0 : ℚ) < (2 : ℚ) ^ (Binary64.expo x - 52) := zpow_pos (by norm_num) _
  constructor
  · rw [le_div_iff₀ hU, ← zpow_split52]
    exact h1
  · rw [div_lt_iff₀ hU, ← zpow_split53]
    exact h2

theorem flPos_eq {x : ℚ} (hx : 0 < x) :
    Binary64.flPos x =
      (Binary64.roundHalfEven (x / (2 : ℚ) ^ (Binary64.expo x - 52)) : ℚ) *
        (2 : ℚ) ^ (Binary64.expo x - 52) := by
  unfold Binary64.flPos
  rw [if_neg hx.ne', pow2_eq]

theorem flPos_zero : Binary64.flPos 0 = 0 := by
  simp [Binary64.flPos]

theorem flPos_lower {x : ℚ} (hx : 0 < x) : (2 : ℚ) ^ Binary64.expo x ≤ Binary64.flPos x := by
  have hU : (0 : ℚ) < (2 : ℚ) ^ (Binary64.expo x - 52) := zpow_pos (by norm_num) _
  have hm := roundHalfEven_mono (significand_bounds hx).1
  rw [roundHalfEven_intCast] at hm
  have hm' : ((2 ^ 52 : ℤ) : ℚ) ≤
      (Binary64.roundHalfEven (x / (2 : ℚ) ^ (Binary64.expo x - 52)) : ℚ) := by
    exact_mod_cast hm
  rw [flPos_eq hx, zpow_split52 (Binary64.expo x)]
  exact mul_le_mul_of_nonneg_right hm' hU.le

theorem flPos_upper {x : ℚ} (hx : 0 < x) :
    Binary64.flPos x ≤ (2 : ℚ) ^ (Binary64.expo x + 1) := by
  have hU : (0 : ℚ) < (2 : ℚ) ^ (Binary64.expo x - 52) := zpow_pos (by norm_num) _
  have hm := roundHalfEven_mono (significand_bounds hx).2.le
  rw [roundHalfEven_intCast] at hm
  have hm' : (Binary64.roundHalfEven (x / (2 : ℚ) ^ (Binary64.expo x - 52)) : ℚ) ≤
      ((2 ^ 53 : ℤ) : ℚ) := by
    exact_mod_cast hm
  rw [flPos_eq hx, zpow_split53 (Binary64.expo x)]
  exact mul_le_mul_of_nonneg_right hm' hU.le

theorem flPos_pos {x : ℚ} (hx : 0 < x) : 0 < Binary64.flPos x :=
  lt_of_lt_of_le (zpow_pos (by norm_num) _) (flPos_lower hx)

theorem flPos_nonneg {x : ℚ} (hx : 0 ≤ x) : 0 ≤ Binary64.flPos x := by
  rcases eq_or_lt_of_le hx with h | h
  · rw [← h, flPos_zero]
  · exact (flPos_pos h).le

theorem flPos_mono {x y : ℚ} (hx : 0 ≤ x) (hxy : x ≤ y) :
    Binary64.flPos x ≤ Binary64.flPos y := by
  rcases eq_or_lt_of_le hx with h | hxpos
  · rw [← h, flPos_zero]
    exact flPos_nonneg (le_trans hx hxy)
  · have hypos : 0 < y := lt_of_lt_of_le hxpos hxy
    have hle : Binary64.expo x ≤ Binary64.expo y := by
      apply le_expo_of_le hypos.ne'
      rw [abs_of_pos hypos]
      have := (expo_spec hxpos.ne').1
      rw [abs_of_pos hxpos] at this
      exact le_trans this hxy
    rcases lt_or_eq_of_le hle with hlt | heq
    · calc Binary64.flPos x ≤ (2 : ℚ) ^ (Binary64.expo x + 1) := flPos_upper hxpos
        _ ≤ (2 : ℚ) ^ Binary64.expo y :=
            zpow_le_zpow_right₀ (by norm_num) (by omega)
        _ ≤ Binary64.flPos y := flPos_lower hypos
    · have hU : (0 : ℚ) < (2 : ℚ) ^ (Binary64.expo y - 52) := zpow_pos (by norm_num) _
      rw [flPos_eq hxpos, flPos_eq hypos, heq]
      apply mul_le_mul_of_nonneg_right _ hU.le
      have : x / (2 : ℚ) ^ (Binary64.expo y - 52) ≤ y / (2 : ℚ) ^ (Binary64.expo y - 52) :=
        div_le_div_of_nonneg_right hxy hU.le
      exact_mod_cast roundHalfEven_mono this

/-- The rounding error of a positive number is at most half a unit in the
last place. -/
theorem flPos_err {x : ℚ} (hx : 0 < x) :
    |Binary64.flPos x - x| ≤ (2 : ℚ) ^ (Binary64.expo x - 52) / 2 := by
  have hU : (0 : ℚ) < (2 : ℚ) ^ (Binary64.expo x - 52) := zpow_pos (by norm_num) _
  have h1 := roundHalfEven_le (x / (2 : ℚ) ^ (Binary64.expo x - 52))
  have h2 := roundHalfEven_ge (x / (2 : ℚ) ^ (Binary64.expo x - 52))
  have hx' : x = x / (2 : ℚ) ^ (Binary64.expo x - 52) * (2 : ℚ) ^ (Binary64.expo x - 52) := by
    field_simp
  rw [flPos_eq hx, abs_le]
  constructor
  · nlinarith
  · nlinarith

/-- A positive number with a significand of at most 53 bits is not changed. -/
theorem flPos_fix (m : ℕ) (k : ℤ) (hm : m < 2 ^ 53) (hpos : 0 < m) :
    Binary64.flPos ((m : ℚ) * (2 : ℚ) ^ k) = (m : ℚ) * (2 : ℚ) ^ k := by
  have h2 : (2 : ℚ) ≠ 0 := by norm_num
  obtain ⟨x, hxdef⟩ : ∃ x : ℚ, x = (m : ℚ) * (2 : ℚ) ^ k := ⟨_, rfl⟩
  rw [← hxdef]
  have hx : 0 < x := by
    rw [hxdef]
    exact mul_pos (by exact_mod_cast hpos) (zpow_pos (by norm_num) k)
  have he : Binary64.expo x ≤ 52 + k := by
    apply expo_le_of_lt hx.ne'
    rw [abs_of_pos hx, hxdef]
    have : (2 : ℚ) ^ (52 + k + 1) = (2 : ℚ) ^ (53 : ℕ) * (2 : ℚ) ^ k := by
      rw [← zpow_natCast, ← zpow_add₀ h2]
      congr 1
      push_cast
      ring
    rw [this]
    apply mul_lt_mul_of_pos_right _ (zpow_pos (by norm_num) k)
    exact_mod_cast hm
  obtain ⟨j, hj⟩ := Int.eq_ofNat_of_zero_le (show 0 ≤ k - (Binary64.expo x - 52) by omega)
  obtain ⟨U, hUdef⟩ : ∃ U : ℚ, U = (2 : ℚ) ^ (Binary64.expo x - 52) := ⟨_, rfl⟩
  have hU : U ≠ 0 := by
    rw [hUdef]
    exact (zpow_pos (by norm_num) _).ne'
  have hsplit : (2 : ℚ) ^ k = U * (2 : ℚ) ^ j := by
    have hk : k = (Binary64.expo x - 52) + (j : ℤ) := by omega
    rw [hUdef]
    conv_lhs => rw [hk]
    rw [zpow_add₀ h2, zpow_natCast]
  have hquot : x / U = (((m * 2 ^ j : ℕ) : ℤ) : ℚ) := by
    rw [div_eq_iff hU, hxdef, hsplit]
    push_cast
    ring
  rw [flPos_eq hx, ← hUdef, hquot, roundHalfEven_intCast, ← hquot]
  field_simp

theorem fl_of_nonneg {x : ℚ} (hx : 0 ≤ x) : Binary64.fl x = Binary64.flPos x := by
  simp [Binary64.fl, hx]

theorem fl_of_neg {x : ℚ} (hx : x < 0) : Binary64.fl x = -Binary64.flPos (-x) := by
  simp [Binary64.fl, not_le.2 hx]

theorem fl_zero : Binary64.fl 0 = 0 := by
  rw [fl_of_nonneg (le_refl 0), flPos_zero]

theorem fl_neg (x : ℚ) : Binary64.fl (-x) = -Binary64.fl x := by
  rcases lt_trichotomy x 0 with h | h | h
  · rw [fl_of_nonneg (by linarith : (0 : ℚ) ≤ -x), fl_of_neg h, neg_neg]
  · subst h
    simp [fl_zero]
  · rw [fl_of_neg (by linarith : -x < 0), fl_of_nonneg h.le, neg_neg]

theorem fl_nonneg {x : ℚ} (hx : 0 ≤ x) : 0 ≤ Binary64.fl x := by
  rw [fl_of_nonneg hx]
  exact flPos_nonneg hx

theorem fl_pos {x : ℚ} (hx : 0 < x) : 0 < Binary64.fl x := by
  rw [fl_of_nonneg hx.le]
  exact flPos_pos hx

theorem fl_neg_of_neg {x : ℚ} (hx : x < 0) : Binary64.fl x < 0 := by
  rw [fl_of_neg hx]
  have := flPos_pos (show (0 : ℚ) < -x by linarith)
  linarith

theorem fl_le_zero_iff (x : ℚ) : Binary64.fl x ≤ 0 ↔ x ≤ 0 := by
  constructor
  · intro h
    by_contra hc
    exact absurd h (not_le.2 (fl_pos (not_le.1 hc)))
  · intro h
    rcases eq_or_lt_of_le h with h0 | hneg
    · rw [h0, fl_zero]
    · exact (fl_neg_of_neg hneg).le

/-- Rounding is monotone. -/
theorem fl_mono {x y : ℚ} (h : x ≤ y) : Binary64.fl x ≤ Binary64.fl y := by
  rcases le_or_lt 0 x with hx | hx
  · rw [fl_of_nonneg hx, fl_of_nonneg (le_trans hx h)]
    exact flPos_mono hx h
  · rcases le_or_lt 0 y with hy | hy
    · exact le_trans (fl_neg_of_neg hx).le (fl_nonneg hy)
    · rw [fl_of_neg hx, fl_of_neg hy]
      have := flPos_mono (show (0 : ℚ) ≤ -y by linarith) (show -y ≤ -x by linarith)
      linarith

/-- A number with a significand of at most 53 bits is a binary64 value. -/
theorem fl_fix (m : ℤ) (k : ℤ) (hm : |m| < 2 ^ 53) :
    Binary64.fl ((m : ℚ) * (2 : ℚ) ^ k) = (m : ℚ) * (2 : ℚ) ^ k := by
  have hpow : (0 : ℚ) < (2 : ℚ) ^ k := zpow_pos (by norm_num) k
  rcases lt_trichotomy m 0 with h | h | h
  · obtain ⟨n, hn⟩ := Int.eq_ofNat_of_zero_le (show 0 ≤ -m by omega)
    have hm' : m = -(n : ℤ) := by omega
    have hn53 : n < 2 ^ 53 := by
      have : |m| = (n : ℤ) := by rw [abs_of_neg h]; exact hn
      rw [this] at hm
      exact_mod_cast hm
    have hnpos : 0 < n := by omega
    rw [hm']
    push_cast
    rw [neg_mul, fl_neg, fl_of_nonneg (by positivity), flPos_fix n k hn53 hnpos]
  · subst h
    simp [fl_zero]
  · obtain ⟨n, hn⟩ := Int.eq_ofNat_of_zero_le h.le
    have hn53 : n < 2 ^ 53 := by
      have : |m| = (n : ℤ) := by rw [abs_of_pos h]; exact hn
      rw [this] at hm
      exact_mod_cast hm
    have hnpos : 0 < n := by omega
    rw [hn]
    push_cast
    rw [fl_of_nonneg (by positivity), flPos_fix n k hn53 hnpos]

/-- Below `2 ^ 53` in absolute value the rounding error is at most `1 / 2`. -/
theorem fl_err_half {x : ℚ} (hx : |x| < 2 ^ 53) : |Binary64.fl x - x| ≤ 1 / 2 := by
  have hstep : ∀ y : ℚ, 0 < y → y < 2 ^ 53 → |Binary64.flPos y - y| ≤ 1 / 2 := by
    intro y hy hlt
    have he : Binary64.expo y ≤ 52 := by
      apply expo_le_of_lt hy.ne'
      rw [abs_of_pos hy]
      exact_mod_cast hlt
    have hU : (2 : ℚ) ^ (Binary64.expo y - 52) ≤ (2 : ℚ) ^ (0 : ℤ) :=
      zpow_le_zpow_right₀ (by norm_num) (by omega)
    have := flPos_err hy
    rw [zpow_zero] at hU
    linarith
  rcases lt_trichotomy x 0 with h | h | h
  · rw [fl_of_neg h]
    have := hstep (-x) (by linarith) (by rwa [abs_of_neg h] at hx)
    rw [abs_le] at this ⊢
    constructor <;> linarith
  · subst h
    simp [fl_zero]
  · rw [fl_of_nonneg h.le]
    exact hstep x h (by rwa [abs_of_pos h] at hx)

/-- Below `2 ^ (k + 1)` in absolute value the rounding error is at most
`2 ^ (k - 53)`. -/
theorem fl_err_of_lt {x : ℚ} (k : ℤ) (hx : |x| < (2 : ℚ) ^ (k + 1)) :
    |Binary64.fl x - x| ≤ (2 : ℚ) ^ (k - 52) / 2 := by
  have hstep : ∀ y : ℚ, 0 < y → y < (2 : ℚ) ^ (k + 1) →
      |Binary64.flPos y - y| ≤ (2 : ℚ) ^ (k - 52) / 2 := by
    intro y hy hlt
    have he : Binary64.expo y ≤ k := by
      apply expo_le_of_lt hy.ne'
      rwa [abs_of_pos hy]
    have hU : (2 : ℚ) ^ (Binary64.expo y - 52) ≤ (2 : ℚ) ^ (k - 52) :=
      zpow_le_zpow_right₀ (by norm_num) (by omega)
    have := flPos_err hy
    linarith
  rcases lt_trichotomy x 0 with h | h | h
  · rw [fl_of_neg h]
    have := hstep (-x) (by linarith) (by rwa [abs_of_neg h] at hx)
    rw [abs_le] at this ⊢
    constructor <;> linarith
  · subst h
    simp only [fl_zero, sub_zero, abs_zero]
    positivity
  · rw [fl_of_nonneg h.le]
    exact hstep x h (by rwa [abs_of_pos h] at hx)

theorem mathRound_nonneg {x : ℚ} (hx : 0 ≤ x) : 0 ≤ mathRound x := by
  have := mathRound_mono hx
  rwa [show mathRound 0 = 0 by decide!] at this

/-! ## The estimator in binary64 arithmetic -/

/-- The binary64 `calculateTDEEFromData` on a series of at least two
observations, in terms of its first and last element. -/
theorem binary64_estimator_unfold {weightData : List Observation}
    {first latest : Observation} (dailyCalories weeksBack : ℚ)
    (hfirst : weightData.head? = some first) (hlast : weightData.getLast? = some latest)
    (hlen : 2 ≤ weightData.length) :
    Binary64.calculateTDEEFromData weightData dailyCalories weeksBack =
      if Binary64.fl (latest.weekNumber -
          (findEarlierPoint weightData (Binary64.fl (latest.weekNumber - weeksBack))
            first).weekNumber) ≤ 0
      then none
      else some (Binary64.estimateFrom latest
        (findEarlierPoint weightData (Binary64.fl (latest.weekNumber - weeksBack)) first)
        dailyCalories) := by
  rcases weightData with _ | ⟨a, _ | ⟨b, rest⟩⟩
  · simp at hlen
  · simp at hlen
  · simp only [List.head?_cons, Option.some.injEq] at hfirst
    subst hfirst
    have hl : (b :: rest).getLast (List.cons_ne_nil b rest) = latest := by
      rw [List.getLast?_cons_cons, List.getLast?_eq_getLast _ (List.cons_ne_nil b rest)] at hlast
      exact Option.some.inj hlast
    simp only [Binary64.calculateTDEEFromData, hl]

/-- A result of the binary64 estimator is the object built from the latest
point and some earlier point. -/
theorem binary64_estimator_some {weightData : List Observation} {dailyCalories weeksBack : ℚ}
    {r : TdeeEstimate}
    (h : Binary64.calculateTDEEFromData weightData dailyCalories weeksBack = some r) :
    ∃ latest earlier : Observation, r = Binary64.estimateFrom latest earlier dailyCalories := by
  rcases weightData with _ | ⟨a, _ | ⟨b, rest⟩⟩
  · simp [Binary64.calculateTDEEFromData] at h
  · simp [Binary64.calculateTDEEFromData] at h
  · simp only [Binary64.calculateTDEEFromData] at h
    split_ifs at h
    exact ⟨_, _, (Option.some.inj h).symm⟩

/-- The point chosen by the backward scan is an element of the series. -/
theorem findEarlierPoint_mem {weightData : List Observation} {first : Observation}
    (hfirst : weightData.head? = some first) (targetWeek : ℚ) :
    findEarlierPoint weightData targetWeek first ∈ weightData := by
  rcases findEarlierPoint_cases weightData targetWeek first with
    ⟨hfind, -⟩ | ⟨before, e, after, hsplit, hfind, -, -⟩
  · rw [hfind]
    exact List.mem_of_mem_head? hfirst
  · rw [hfind, hsplit]
    simp

/-- In a sorted series, when some observation lies at or before the target
week, the backward scan returns one of them with the greatest week. -/
theorem findEarlierPoint_greatest {weightData : List Observation} {first : Observation}
    {targetWeek : ℚ}
    (hsorted : weightData.Pairwise (fun a b => a.weekNumber ≤ b.weekNumber))
    (hex : ∃ o ∈ weightData, o.weekNumber ≤ targetWeek) :
    findEarlierPoint weightData targetWeek first ∈ weightData ∧
    (findEarlierPoint weightData targetWeek first).weekNumber ≤ targetWeek ∧
    ∀ o ∈ weightData, o.weekNumber ≤ targetWeek →
      o.weekNumber ≤ (findEarlierPoint weightData targetWeek first).weekNumber := by
  rcases findEarlierPoint_cases weightData targetWeek first with
    ⟨-, hnone⟩ | ⟨before, e, after, hsplit, hfind, hle, hafter⟩
  · obtain ⟨o, ho, hole⟩ := hex
    exact absurd hole (hnone o ho)
  · rw [hfind]
    refine ⟨by rw [hsplit]; simp, hle, ?_⟩
    intro o ho hole
    rw [hsplit] at ho hsorted
    rcases List.mem_append.1 ho with hb | hc
    · exact (List.pairwise_append.1 hsorted).2.2 o hb e (List.mem_cons_self e after)
    · rcases List.mem_cons.1 hc with rfl | ha
      · exact le_refl _
      · exact absurd hole (hafter o ha)

/-- The binary64 estimator on small series. -/
theorem binary64_estimator_eval :
    Binary64.calculateTDEEFromData
        [{ weekNumber := 0, weight := 201 }, { weekNumber := 1001, weight := 200 }] 1200 4 =
      some { tdee := 1200, dailyDeficit := 0, weeklyLossRate := 0, weeksAnalyzed := 1001 } ∧
    Binary64.calculateTDEEFromData
        [{ weekNumber := 0, weight := 255 }, { weekNumber := 1, weight := 250 }] 1200 4 =
      some { tdee := 3700, dailyDeficit := 2500, weeklyLossRate := 5, weeksAnalyzed := 1 } ∧
    Binary64.calculateTDEEFromData
        [{ weekNumber := 0, weight := 255 }, { weekNumber := 1, weight := 250 }] 1200
        (1 / 100000000000000000) = none ∧
    (Binary64.calculateTDEEFromData
        [{ weekNumber := 0, weight := 214 }, { weekNumber := Binary64.fl (8 / 5), weight := 213 }]
        1200 4).map (fun r => (r.tdee, r.dailyDeficit)) = some (1513, 312) ∧
    (Binary64.calculateTDEEFromData
        [{ weekNumber := 0, weight := 200 }, { weekNumber := 33 / 8, weight := 199 }]
        1200 (33 / 8)).map (fun r => r.weeksAnalyzed) = some (Binary64.fl (41 / 10)) := by
  decide!

/-! ## The estimator: sign of the deficit -/

/-- C8, as stated, fails: on `[{week 0, 201}, {week 1001, 200}]` the selected
earlier observation is the first one, it is heavier than the latest and
`weeksDiff = 1001 > 0`, yet the returned `dailyDeficit` is `0`, in binary64
arithmetic as in exact arithmetic. -/
theorem binary64_deficit_not_positive :
    findEarlierPoint [{ weekNumber := 0, weight := 201 }, { weekNumber := 1001, weight := 200 }]
        (Binary64.fl ((1001 : ℚ) - 4)) { weekNumber := 0, weight := 201 } =
      { weekNumber := 0, weight := 201 } ∧
    (201 : ℚ) > 200 ∧ Binary64.fl ((1001 : ℚ) - 0) > 0 ∧
    ¬ ∃ r : TdeeEstimate,
        Binary64.calculateTDEEFromData
          [{ weekNumber := 0, weight := 201 }, { weekNumber := 1001, weight := 200 }] 1200 4 =
          some r ∧ 0 < r.dailyDeficit := by
  refine ⟨by decide!, by norm_num, by decide!, ?_⟩
  rintro ⟨r, hr, hpos⟩
  rw [binary64_estimator_eval.1] at hr
  obtain rfl := Option.some.inj hr
  exact absurd hpos (by decide)

/-- C8, amended: when the selected earlier observation is heavier than the
latest one and the computed `weeksDiff` is `> 0`, `calculateTDEEFromData`
returns a non-null result whose `dailyDeficit` is `>= 0`. -/
theorem binary64_deficit_nonneg (weightData : List Observation)
    (first latest : Observation) (dailyCalories weeksBack : ℚ)
    (hfirst : weightData.head? = some first) (hlast : weightData.getLast? = some latest)
    (hlen : 2 ≤ weightData.length)
    (hheavier : (findEarlierPoint weightData
        (Binary64.fl (latest.weekNumber - weeksBack)) first).weight > latest.weight)
    (hweeks : Binary64.fl (latest.weekNumber -
        (findEarlierPoint weightData
          (Binary64.fl (latest.weekNumber - weeksBack)) first).weekNumber) > 0) :
    ∃ r : TdeeEstimate,
      Binary64.calculateTDEEFromData weightData dailyCalories weeksBack = some r ∧
      0 ≤ r.dailyDeficit := by
  rw [binary64_estimator_unfold dailyCalories weeksBack hfirst hlast hlen,
    if_neg (not_le.2 hweeks)]
  refine ⟨_, rfl, ?_⟩
  simp only [Binary64.estimateFrom]
  apply mathRound_nonneg
  apply fl_nonneg
  apply div_nonneg
  · apply fl_nonneg
    apply mul_nonneg _ (by norm_num)
    apply fl_nonneg
    linarith
  · apply fl_nonneg
    exact mul_nonneg hweeks.le (by norm_num)

/-- C8, amended, on `[{week 0, 255}, {week 1, 250}]`: the deficit is 2500. -/
theorem binary64_deficit_nonneg_two_points :
    ∃ r : TdeeEstimate,
      Binary64.calculateTDEEFromData
        [{ weekNumber := 0, weight := 255 }, { weekNumber := 1, weight := 250 }] 1200 4 =
        some r ∧ 0 ≤ r.dailyDeficit :=
  binary64_deficit_nonneg
    [{ weekNumber := 0, weight := 255 }, { weekNumber := 1, weight := 250 }]
    { weekNumber := 0, weight := 255 } { weekNumber := 1, weight := 250 } 1200 4
    rfl rfl (by decide) (by decide!) (by decide!)

/-! ## The estimator: `tdee` against intake plus deficit -/

/-- C13, as stated, fails: on weeks 0 and 1.6 with 214 and 213 lb and
`dailyCalories = 1200` the deficit 312.49999999999994 is returned as 312, while
`1200 + 312.49999999999994` rounds to 1512.5 and is returned as `tdee = 1513`. -/
theorem binary64_tdee_not_intake_plus_deficit :
    ∃ r : TdeeEstimate,
      Binary64.calculateTDEEFromData
        [{ weekNumber := 0, weight := 214 }, { weekNumber := Binary64.fl (8 / 5), weight := 213 }]
        ((1200 : ℤ) : ℚ) 4 = some r ∧
      r.tdee = 1513 ∧ r.dailyDeficit = 312 ∧ r.tdee ≠ 1200 + r.dailyDeficit := by
  have h := binary64_estimator_eval.2.2.2.1
  cases hc : Binary64.calculateTDEEFromData
      [{ weekNumber := 0, weight := 214 }, { weekNumber := Binary64.fl (8 / 5), weight := 213 }]
      1200 4 with
  | none => rw [hc] at h; simp at h
  | some r =>
    rw [hc] at h
    simp only [Option.map_some', Option.some.injEq, Prod.mk.injEq] at h
    refine ⟨r, ?_, h.1, h.2, ?_⟩
    · rw [← hc]
    · rw [h.1, h.2]
      decide

/-- C13, amended: whenever `calculateTDEEFromData` returns a result,
`dailyCalories` is a whole number, and both it and the returned `dailyDeficit`
are at most `2 ^ 50` in absolute value, the returned `tdee` is
`dailyCalories + dailyDeficit` or exceeds it by 1. -/
theorem binary64_tdee_near_intake_plus_deficit (weightData : List Observation)
    (dailyCalories : ℤ) (weeksBack : ℚ) (r : TdeeEstimate)
    (h : Binary64.calculateTDEEFromData weightData dailyCalories weeksBack = some r)
    (hdc : |dailyCalories| ≤ 2 ^ 50) (hdd : |r.dailyDeficit| ≤ 2 ^ 50) :
    r.tdee = dailyCalories + r.dailyDeficit ∨ r.tdee = dailyCalories + r.dailyDeficit + 1 := by
  obtain ⟨latest, earlier, rfl⟩ := binary64_estimator_some h
  simp only [Binary64.estimateFrom] at hdd ⊢
  generalize Binary64.fl (Binary64.fl (Binary64.fl (earlier.weight - latest.weight) * 3500) /
    Binary64.fl (Binary64.fl (latest.weekNumber - earlier.weekNumber) * 7)) = dd at hdd ⊢
  obtain ⟨m, hm⟩ : ∃ m : ℤ, m = mathRound dd := ⟨_, rfl⟩
  rw [← hm] at hdd ⊢
  have hm1 : (m : ℚ) ≤ dd + 1 / 2 := by
    rw [hm]
    exact Int.floor_le _
  have hm2 : dd + 1 / 2 < (m : ℚ) + 1 := by
    rw [hm]
    exact Int.lt_floor_add_one _
  have hbound : |dailyCalories + m| ≤ 2 ^ 51 := by
    have := abs_add dailyCalories m
    omega
  have hfixL := fl_fix (2 * (dailyCalories + m) - 1) (-1) (by
    rw [abs_lt]
    rw [abs_le] at hbound
    constructor <;> omega)
  have hfixR := fl_fix (2 * (dailyCalories + m) + 1) (-1) (by
    rw [abs_lt]
    rw [abs_le] at hbound
    constructor <;> omega)
  have hL : ((2 * (dailyCalories + m) - 1 : ℤ) : ℚ) * (2 : ℚ) ^ (-1 : ℤ) =
      (dailyCalories : ℚ) + m - 1 / 2 := by
    push_cast
    rw [zpow_neg_one]
    ring
  have hR : ((2 * (dailyCalories + m) + 1 : ℤ) : ℚ) * (2 : ℚ) ^ (-1 : ℤ) =
      (dailyCalories : ℚ) + m + 1 / 2 := by
    push_cast
    rw [zpow_neg_one]
    ring
  rw [hL] at hfixL
  rw [hR] at hfixR
  have h1 : (dailyCalories : ℚ) + m - 1 / 2 ≤ Binary64.fl ((dailyCalories : ℚ) + dd) := by
    rw [← hfixL]
    exact fl_mono (by linarith)
  have h2 : Binary64.fl ((dailyCalories : ℚ) + dd) ≤ (dailyCalories : ℚ) + m + 1 / 2 := by
    rw [← hfixR]
    exact fl_mono (by linarith)
  have h3 : dailyCalories + m ≤ mathRound (Binary64.fl ((dailyCalories : ℚ) + dd)) := by
    have := mathRound_mono h1
    rwa [show (dailyCalories : ℚ) + m - 1 / 2 = (((dailyCalories + m : ℤ) : ℚ)) + ((-1 : ℤ) : ℚ) / 2
      by push_cast; ring, show (((dailyCalories + m : ℤ) : ℚ)) + ((-1 : ℤ) : ℚ) / 2 =
        (-1 / 2 : ℚ) + (((dailyCalories + m : ℤ)) : ℚ) by push_cast; ring,
      mathRound_add_int, show mathRound (-1 / 2) = 0 by decide!, zero_add] at this
  have h4 : mathRound (Binary64.fl ((dailyCalories : ℚ) + dd)) ≤ dailyCalories + m + 1 := by
    have := mathRound_mono h2
    rwa [show (dailyCalories : ℚ) + m + 1 / 2 = (1 / 2 : ℚ) + (((dailyCalories + m : ℤ)) : ℚ)
      by push_cast; ring, mathRound_add_int, show mathRound (1 / 2) = 1 by decide!,
      add_comm (1 : ℤ)] at this
  omega

/-- C13, amended, on weeks 0 and 1.6 with 214 and 213 lb: `1513 = 1200 + 312 + 1`. -/
theorem binary64_tdee_near_intake_plus_deficit_example :
    ∃ r : TdeeEstimate,
      Binary64.calculateTDEEFromData
        [{ weekNumber := 0, weight := 214 }, { weekNumber := Binary64.fl (8 / 5), weight := 213 }]
        ((1200 : ℤ) : ℚ) 4 = some r ∧
      (r.tdee = 1200 + r.dailyDeficit ∨ r.tdee = 1200 + r.dailyDeficit + 1) := by
  cases hc : Binary64.calculateTDEEFromData
      [{ weekNumber := 0, weight := 214 }, { weekNumber := Binary64.fl (8 / 5), weight := 213 }]
      ((1200 : ℤ) : ℚ) 4 with
  | none =>
    have h := binary64_estimator_eval.2.2.2.1
    have hc' : Binary64.calculateTDEEFromData
        [{ weekNumber := 0, weight := 214 },
          { weekNumber := Binary64.fl (8 / 5), weight := 213 }] 1200 4 = none := by
      rw [← hc]
      norm_num
    rw [hc'] at h
    simp at h
  | some r =>
    have h := binary64_estimator_eval.2.2.2.1
    have hc' : Binary64.calculateTDEEFromData
        [{ weekNumber := 0, weight := 214 },
          { weekNumber := Binary64.fl (8 / 5), weight := 213 }] 1200 4 = some r := by
      rw [← hc]
      norm_num
    rw [hc'] at h
    simp only [Option.map_some', Option.some.injEq, Prod.mk.injEq] at h
    exact ⟨r, rfl, binary64_tdee_near_intake_plus_deficit _ 1200 4 r hc (by norm_num)
      (by rw [h.2]; norm_num)⟩

/-! ## The estimator: when it fails -/

/-- C18, as stated, fails: on the sorted series `[{week 0, 255}, {week 1, 250}]`
with `weeksBack = 1e-17 > 0` the subtraction `1 - 1e-17` gives `1`, the scan
selects the latest observation itself, `weeksDiff` is `0` and the result is
`null`, although the first and the last observation have different weeks. -/
theorem binary64_null_with_different_weeks :
    ([({ weekNumber := 0, weight := 255 } : Observation),
        { weekNumber := 1, weight := 250 }]).Pairwise
      (fun a b => a.weekNumber ≤ b.weekNumber) ∧
    (0 : ℚ) < 1 / 100000000000000000 ∧
    Binary64.fl ((1 : ℚ) - 1 / 100000000000000000) = 1 ∧
    Binary64.calculateTDEEFromData
        [{ weekNumber := 0, weight := 255 }, { weekNumber := 1, weight := 250 }] 1200
        (1 / 100000000000000000) = none ∧
    (0 : ℚ) ≠ 1 := by
  refine ⟨by decide!, by norm_num, by decide!, binary64_estimator_eval.2.2.1, by norm_num⟩

/-- C18, amended: on a series of at least 2 observations sorted by
non-decreasing `weekNumber`, `calculateTDEEFromData` returns `null` if and only
if the first and the last observation have the same `weekNumber` or the
computed `targetWeek = latest.weekNumber - weeksBack` is not below
`latest.weekNumber`; when `weeksBack >= 1/16` and
`|latest.weekNumber - weeksBack| < 2^49` the second case does not arise and
`null` is returned if and only if the first and the last observation have the
same `weekNumber`. -/
theorem binary64_null_iff (weightData : List Observation)
    (first latest : Observation) (dailyCalories weeksBack : ℚ)
    (hfirst : weightData.head? = some first) (hlast : weightData.getLast? = some latest)
    (hlen : 2 ≤ weightData.length)
    (hsorted : weightData.Pairwise (fun a b => a.weekNumber ≤ b.weekNumber)) :
    (Binary64.calculateTDEEFromData weightData dailyCalories weeksBack = none ↔
      first.weekNumber = latest.weekNumber ∨
        latest.weekNumber ≤ Binary64.fl (latest.weekNumber - weeksBack)) ∧
    (1 / 16 ≤ weeksBack → |latest.weekNumber - weeksBack| < 2 ^ 49 →
      (Binary64.calculateTDEEFromData weightData dailyCalories weeksBack = none ↔
        first.weekNumber = latest.weekNumber)) := by
  have hlmem : latest ∈ weightData := List.mem_of_getLast?_eq_some hlast
  have hfl : first.weekNumber ≤ latest.weekNumber :=
    sorted_first_le hfirst hsorted latest hlmem
  have hemem := findEarlierPoint_mem hfirst (Binary64.fl (latest.weekNumber - weeksBack))
  have hel := sorted_le_last hlast hsorted _ hemem
  have hfe := sorted_first_le hfirst hsorted _ hemem
  have hnull : Binary64.calculateTDEEFromData weightData dailyCalories weeksBack = none ↔
      latest.weekNumber ≤ (findEarlierPoint weightData
        (Binary64.fl (latest.weekNumber - weeksBack)) first).weekNumber := by
    rw [binary64_estimator_unfold dailyCalories weeksBack hfirst hlast hlen]
    constructor
    · intro h
      split_ifs at h with hc
      have := (fl_le_zero_iff _).1 hc
      linarith
    · intro h
      rw [if_pos ((fl_le_zero_iff _).2 (by linarith))]
  have hmain : Binary64.calculateTDEEFromData weightData dailyCalories weeksBack = none ↔
      first.weekNumber = latest.weekNumber ∨
        latest.weekNumber ≤ Binary64.fl (latest.weekNumber - weeksBack) := by
    rw [hnull]
    constructor
    · intro h
      rcases findEarlierPoint_cases weightData
          (Binary64.fl (latest.weekNumber - weeksBack)) first with
        ⟨hfind, -⟩ | ⟨before, e, after, -, hfind, hle, -⟩
      · rw [hfind] at h
        exact Or.inl (le_antisymm hfl h)
      · rw [hfind] at h
        exact Or.inr (le_trans h hle)
    · rintro (h | h)
      · linarith
      · exact (findEarlierPoint_greatest hsorted ⟨latest, hlmem, h⟩).2.2 latest hlmem h
  refine ⟨hmain, fun hwb hsmall => ?_⟩
  rw [hmain]
  constructor
  · rintro (h | h)
    · exact h
    · have herr := fl_err_of_lt 48 (by norm_num; exact hsmall)
      rw [abs_le] at herr
      have h32 : (2 : ℚ) ^ ((48 : ℤ) - 52) / 2 = 1 / 32 := by
        rw [show (48 : ℤ) - 52 = -4 by norm_num, zpow_neg]
        norm_num
      rw [h32] at herr
      linarith [herr.2]
  · exact Or.inl

/-- C18, amended, on two observations of the same week and on two of different
weeks, with `weeksBack = 4`. -/
theorem binary64_null_iff_examples :
    (Binary64.calculateTDEEFromData
        [{ weekNumber := 1, weight := 100 }, { weekNumber := 1, weight := 99 }] 1200 4 = none ↔
      (1 : ℚ) = 1) ∧
    (Binary64.calculateTDEEFromData
        [{ weekNumber := 0, weight := 255 }, { weekNumber := 1, weight := 250 }] 1200 4 = none ↔
      (0 : ℚ) = 1) :=
  ⟨(binary64_null_iff
      [{ weekNumber := 1, weight := 100 }, { weekNumber := 1, weight := 99 }]
      { weekNumber := 1, weight := 100 } { weekNumber := 1, weight := 99 } 1200 4
      rfl rfl (by decide) (by decide!)).2 (by norm_num) (by norm_num),
   (binary64_null_iff
      [{ weekNumber := 0, weight := 255 }, { weekNumber := 1, weight := 250 }]
      { weekNumber := 0, weight := 255 } { weekNumber := 1, weight := 250 } 1200 4
      rfl rfl (by decide) (by decide!)).2 (by norm_num) (by norm_num)⟩

/-! ## The estimator: the chosen window -/

/-- The week numbers of 9/10, 9/12 and 10/10, and the window chosen on them. -/
theorem binary64_four_weeks_back_eval :
    Binary64.actualDataOf
        [{ month := 9, day := 10, weight := 255 }, { month := 9, day := 12, weight := 254 },
          { month := 10, day := 10, weight := 245 }] =
      [{ weekNumber := 0, weight := 255 }, { weekNumber := Binary64.fl (3 / 10), weight := 254 },
        { weekNumber := Binary64.fl (43 / 10), weight := 245 }] ∧
    Binary64.fl (Binary64.fl (43 / 10) - 4) < Binary64.fl (3 / 10) ∧
    findEarlierPoint
        [{ weekNumber := 0, weight := 255 }, { weekNumber := Binary64.fl (3 / 10), weight := 254 },
          { weekNumber := Binary64.fl (43 / 10), weight := 245 }]
        (Binary64.fl (Binary64.fl (43 / 10) - 4)) { weekNumber := 0, weight := 255 } =
      { weekNumber := 0, weight := 255 } := by
  decide!

/-- C12, as stated, fails in three ways.  On `[{week 0, 255}, {week 1, 250}]`
with `weeksBack = 1e-17` the first observation lies before
`latest.weekNumber - weeksBack`, yet the result is `null`.  On the weigh-ins of
9/10, 9/12 and 10/10 (weeks 0, 0.3 and 4.3) with `weeksBack = 4` the computed
target week `4.3 - 4` is below `0.3`, so the weigh-in of 9/12, taken 28 days
before the latest, is passed over for the one of week 0.  On
`[{week 0, 200}, {week 4.125, 199}]` with `weeksBack = 4.125` the result is
non-null but its `weeksAnalyzed` is `4.1`, less than `weeksBack`. -/
theorem binary64_window_not_as_stated :
    ((0 : ℚ) < 1 / 100000000000000000 ∧
      (∃ o ∈ [({ weekNumber := 0, weight := 255 } : Observation),
          { weekNumber := 1, weight := 250 }],
        o.weekNumber ≤ (1 : ℚ) - 1 / 100000000000000000) ∧
      Binary64.calculateTDEEFromData
        [{ weekNumber := 0, weight := 255 }, { weekNumber := 1, weight := 250 }] 1200
        (1 / 100000000000000000) = none) ∧
    ((dayOfYear2025 10 10 : ℤ) - dayOfYear2025 9 12 = 28 ∧
      findEarlierPoint
        (Binary64.actualDataOf
          [{ month := 9, day := 10, weight := 255 }, { month := 9, day := 12, weight := 254 },
            { month := 10, day := 10, weight := 245 }])
        (Binary64.fl (Binary64.calculateWeekNumber 10 10 - 4))
        { weekNumber := Binary64.calculateWeekNumber 9 10, weight := 255 } =
      { weekNumber := 0, weight := 255 }) ∧
    ((∃ o ∈ [({ weekNumber := 0, weight := 200 } : Observation),
          { weekNumber := 33 / 8, weight := 199 }], o.weekNumber ≤ (33 / 8 : ℚ) - 33 / 8) ∧
      ∃ r : TdeeEstimate,
        Binary64.calculateTDEEFromData
          [{ weekNumber := 0, weight := 200 }, { weekNumber := 33 / 8, weight := 199 }]
          1200 (33 / 8) = some r ∧
        r.weeksAnalyzed = Binary64.fl (41 / 10) ∧ ¬ (33 / 8 : ℚ) ≤ r.weeksAnalyzed) := by
  refine ⟨⟨by norm_num, by decide!, binary64_estimator_eval.2.2.1⟩, by decide!, by decide!, ?_⟩
  have h := binary64_estimator_eval.2.2.2.2
  cases hc : Binary64.calculateTDEEFromData
      [{ weekNumber := 0, weight := 200 }, { weekNumber := 33 / 8, weight := 199 }]
      1200 (33 / 8) with
  | none => rw [hc] at h; simp at h
  | some r =>
    rw [hc] at h
    simp only [Option.map_some', Option.some.injEq] at h
    refine ⟨r, rfl, h, ?_⟩
    rw [h]
    decide!

/-- C12, amended: on a series of at least 2 observations sorted by
non-decreasing `weekNumber`, if some observation has `weekNumber` at most the
computed `targetWeek = latest.weekNumber - weeksBack` and that `targetWeek` is
below `latest.weekNumber`, then the earlier point chosen by
`calculateTDEEFromData` is an observation at or before `targetWeek` with the
greatest `weekNumber` among all such observations, the result is non-null and
computed from it, `weeksDiff` is positive, and `weeksAnalyzed` is at least
`Math.round((latest.weekNumber - targetWeek) * 10) / 10`. -/
theorem binary64_window_choice (weightData : List Observation)
    (first latest : Observation) (dailyCalories weeksBack : ℚ)
    (hfirst : weightData.head? = some first) (hlast : weightData.getLast? = some latest)
    (hlen : 2 ≤ weightData.length)
    (hsorted : weightData.Pairwise (fun a b => a.weekNumber ≤ b.weekNumber))
    (hex : ∃ o ∈ weightData, o.weekNumber ≤ Binary64.fl (latest.weekNumber - weeksBack))
    (htarget : Binary64.fl (latest.weekNumber - weeksBack) < latest.weekNumber) :
    findEarlierPoint weightData (Binary64.fl (latest.weekNumber - weeksBack)) first ∈
      weightData ∧
    (findEarlierPoint weightData (Binary64.fl (latest.weekNumber - weeksBack))
      first).weekNumber ≤ Binary64.fl (latest.weekNumber - weeksBack) ∧
    (∀ o ∈ weightData, o.weekNumber ≤ Binary64.fl (latest.weekNumber - weeksBack) →
      o.weekNumber ≤ (findEarlierPoint weightData
        (Binary64.fl (latest.weekNumber - weeksBack)) first).weekNumber) ∧
    ∃ r : TdeeEstimate,
      Binary64.calculateTDEEFromData weightData dailyCalories weeksBack = some r ∧
      r = Binary64.estimateFrom latest
        (findEarlierPoint weightData (Binary64.fl (latest.weekNumber - weeksBack)) first)
        dailyCalories ∧
      0 < Binary64.fl (latest.weekNumber - (findEarlierPoint weightData
        (Binary64.fl (latest.weekNumber - weeksBack)) first).weekNumber) ∧
      Binary64.fl ((mathRound (Binary64.fl (Binary64.fl (latest.weekNumber -
        Binary64.fl (latest.weekNumber - weeksBack)) * 10)) : ℚ) / 10) ≤ r.weeksAnalyzed := by
  obtain ⟨hmem, hle, hgreatest⟩ := @findEarlierPoint_greatest weightData first _ hsorted hex
  have hpos : 0 < Binary64.fl (latest.weekNumber - (findEarlierPoint weightData
      (Binary64.fl (latest.weekNumber - weeksBack)) first).weekNumber) :=
    fl_pos (by linarith)
  refine ⟨hmem, hle, hgreatest, _, ?_, rfl, hpos, ?_⟩
  · rw [binary64_estimator_unfold dailyCalories weeksBack hfirst hlast hlen,
      if_neg (not_le.2 hpos)]
  · simp only [Binary64.estimateFrom]
    apply fl_mono
    apply div_le_div_of_nonneg_right _ (by norm_num)
    have h1 : mathRound (Binary64.fl (Binary64.fl (latest.weekNumber -
          Binary64.fl (latest.weekNumber - weeksBack)) * 10)) ≤
        mathRound (Binary64.fl (Binary64.fl (latest.weekNumber -
          (findEarlierPoint weightData (Binary64.fl (latest.weekNumber - weeksBack))
            first).weekNumber) * 10)) := by
      apply mathRound_mono
      apply fl_mono
      apply mul_le_mul_of_nonneg_right _ (by norm_num)
      apply fl_mono
      linarith
    exact_mod_cast h1

/-- C12, amended, on the built-in table with `weeksBack = 4`: the window starts
at the weigh-in of week 9.3 and `weeksAnalyzed` is at least 4. -/
theorem binary64_window_choice_builtin :
    findEarlierPoint (Binary64.actualDataOf rawData)
        (Binary64.fl (Binary64.fl (133 / 10) - 4)) { weekNumber := 0, weight := 255 } =
      { weekNumber := Binary64.fl (93 / 10), weight := 223 } ∧
    ∃ r : TdeeEstimate,
      Binary64.calculateTDEEFromData (Binary64.actualDataOf rawData) 1200 4 = some r ∧
      (4 : ℚ) ≤ r.weeksAnalyzed := by
  obtain ⟨-, -, -, r, hr, -, -, h4⟩ :=
    binary64_window_choice (Binary64.actualDataOf rawData) { weekNumber := 0, weight := 255 }
      { weekNumber := Binary64.fl (133 / 10), weight := 213 } 1200 4
      (by decide!) (by decide!) (by decide!) (by decide!) (by decide!) (by decide!)
  refine ⟨by decide!, r, hr, le_trans ?_ h4⟩
  decide!

/-! ## The projection loops in binary64 arithmetic -/

/-- A loop whose condition is false at the start returns its initial state. -/
theorem whileLoop_of_not_cond {σ : Type} (cond : σ → Bool) (body : σ → σ) (fuel : ℕ) (s : σ)
    (h : cond s = false) : whileLoop cond body fuel s = some s := by
  cases fuel <;> simp [whileLoop, h]

/-- A loop with an invariant and a measure that every iteration decreases stops
within as many iterations as the measure of the initial state. -/
theorem whileLoop_terminates {σ : Type} (cond : σ → Bool) (body : σ → σ)
    (I : σ → Prop) (μ : σ → ℕ)
    (hstep : ∀ s, cond s = true → I s → I (body s) ∧ μ (body s) < μ s) :
    ∀ (fuel : ℕ) (s : σ), I s → μ s ≤ fuel → ∃ t, whileLoop cond body fuel s = some t := by
  intro fuel
  induction fuel with
  | zero =>
    intro s hI hμ
    by_cases hc : cond s = true
    · have := (hstep s hc hI).2
      omega
    · exact ⟨s, by simp [whileLoop, hc]⟩
  | succ n ih =>
    intro s hI hμ
    by_cases hc : cond s = true
    · obtain ⟨hI', hlt⟩ := hstep s hc hI
      obtain ⟨t, ht⟩ := ih (body s) hI' (by omega)
      exact ⟨t, by rw [whileLoop, if_pos hc]; exact ht⟩
    · exact ⟨s, by rw [whileLoop, if_neg hc]⟩

/-- A loop with an invariant under which the condition holds never stops. -/
theorem whileLoop_none {σ : Type} (cond : σ → Bool) (body : σ → σ) (I : σ → Prop)
    (hcond : ∀ s, I s → cond s = true) (hstep : ∀ s, I s → I (body s)) :
    ∀ (fuel : ℕ) (s : σ), I s → whileLoop cond body fuel s = none := by
  intro fuel
  induction fuel with
  | zero =>
    intro s hI
    simp [whileLoop, hcond s hI]
  | succ n ih =>
    intro s hI
    rw [whileLoop, if_pos (hcond s hI)]
    exact ih _ (hstep s hI)

/-- One subtraction of a rate between 0.9 and 2.5 from a weight above 150 and
at most `2 ^ 53` lowers the weight by at least 0.4. -/
theorem binary64_step_decrease {w r : ℚ} (hw : 150 < w) (hw' : w ≤ 2 ^ 53)
    (hr : 9 / 10 ≤ r) (hr' : r ≤ 5 / 2) : Binary64.fl (w - r) ≤ w - 2 / 5 := by
  have hx : |w - r| < 2 ^ 53 := by
    rw [abs_lt]
    norm_num at hw' ⊢
    constructor <;> linarith
  have h := fl_err_half hx
  rw [abs_le] at h
  linarith [h.2]

/-- A weight lowered by at least 0.4 lowers the iteration measure
`ceil(2.5 * (w - 150))` by at least one. -/
theorem ceil_measure_decrease {w w' : ℚ} (hw : 150 < w) (h : w' ≤ w - 2 / 5) :
    ⌈(w' - 150) * (5 / 2)⌉.toNat + 1 ≤ ⌈(w - 150) * (5 / 2)⌉.toNat := by
  have h1 : ⌈(w' - 150) * (5 / 2)⌉ + 1 ≤ ⌈(w - 150) * (5 / 2)⌉ := by
    have h0 : (w' - 150) * (5 / 2) + 1 ≤ (w - 150) * (5 / 2) := by linarith
    have := Int.ceil_mono h0
    rwa [Int.ceil_add_one] at this
  have h2 : 0 < ⌈(w - 150) * (5 / 2)⌉ := Int.ceil_pos.2 (by linarith)
  omega

/-- A binary64 phase loop started at a weight of at most `2 ^ 53` stops. -/
theorem binary64_phaseLoop_terminates (cw tdee b r : ℚ) (ph : ℕ) (hb : 150 ≤ b)
    (hr : 9 / 10 ≤ r) (hr' : r ≤ 5 / 2) (s : Binary64.ProjState)
    (hs : s.weight ≤ 2 ^ 53) (fuel : ℕ)
    (hfuel : ⌈(s.weight - 150) * (5 / 2)⌉.toNat ≤ fuel) :
    ∃ t, Binary64.phaseLoop cw tdee b r ph fuel s = some t := by
  unfold Binary64.phaseLoop
  refine whileLoop_terminates _ _ (fun u => u.weight ≤ 2 ^ 53)
    (fun u => ⌈(u.weight - 150) * (5 / 2)⌉.toNat) ?_ fuel s hs hfuel
  intro u hc hu
  have hub : 150 < u.weight := by
    have : u.weight > b := by simpa using hc
    linarith
  have hdec := binary64_step_decrease hub hu hr hr'
  refine ⟨?_, ?_⟩
  · show Binary64.fl (u.weight - r) ≤ 2 ^ 53
    linarith
  · have := @ceil_measure_decrease u.weight (Binary64.fl (u.weight - r)) hub hdec
    show ⌈(Binary64.fl (u.weight - r) - 150) * (5 / 2)⌉.toNat <
      ⌈(u.weight - 150) * (5 / 2)⌉.toNat
    omega

/-- The state in which a binary64 phase loop stops: the weight is at most the
bound, the points pushed all carry the phase of the loop, and their number is
at most the decrease of the measure. -/
theorem binary64_phaseLoop_spec (cw tdee b r : ℚ) (ph : ℕ) (hb : 150 ≤ b)
    (hr : 9 / 10 ≤ r) (hr' : r ≤ 5 / 2) (s t : Binary64.ProjState) (fuel : ℕ)
    (hs : s.weight ≤ 2 ^ 53)
    (h : Binary64.phaseLoop cw tdee b r ph fuel s = some t) :
    t.weight ≤ 2 ^ 53 ∧ t.weight ≤ b ∧
    t.allProjections.length + ⌈(t.weight - 150) * (5 / 2)⌉.toNat ≤
      s.allProjections.length + ⌈(s.weight - 150) * (5 / 2)⌉.toNat ∧
    (∃ new : List ProjectionPoint,
      t.allProjections = s.allProjections ++ new ∧ ∀ p ∈ new, p.phase = ph) ∧
    (s.weight ≤ b → t = s) := by
  unfold Binary64.phaseLoop at h
  have hinv := whileLoop_invariant (fun (u : Binary64.ProjState) => decide (u.weight > b))
    (Binary64.phaseBody cw tdee r ph)
    (fun u => u.weight ≤ 2 ^ 53 ∧
      u.allProjections.length + ⌈(u.weight - 150) * (5 / 2)⌉.toNat ≤
        s.allProjections.length + ⌈(s.weight - 150) * (5 / 2)⌉.toNat ∧
      ∃ new : List ProjectionPoint,
        u.allProjections = s.allProjections ++ new ∧ ∀ p ∈ new, p.phase = ph)
    (by
      rintro u hc ⟨hu, hlen, new, hnew, hph⟩
      have hub : 150 < u.weight := by
        have : u.weight > b := by simpa using hc
        linarith
      have hdec := binary64_step_decrease hub hu hr hr'
      have hm := @ceil_measure_decrease u.weight (Binary64.fl (u.weight - r)) hub hdec
      refine ⟨?_, ?_, new ++ [Binary64.projectionPoint cw tdee r ph u.weight u.weekNumber],
        ?_, ?_⟩
      · show Binary64.fl (u.weight - r) ≤ 2 ^ 53
        linarith
      · show (u.allProjections ++
            [Binary64.projectionPoint cw tdee r ph u.weight u.weekNumber]).length +
            ⌈(Binary64.fl (u.weight - r) - 150) * (5 / 2)⌉.toNat ≤ _
        rw [List.length_append, List.length_singleton]
        omega
      · show u.allProjections ++ _ = _
        rw [hnew, List.append_assoc]
      · intro p hp
        rcases List.mem_append.1 hp with hp | hp
        · exact hph p hp
        · rw [List.mem_singleton.1 hp]
          rfl)
    fuel s t ⟨hs, le_rfl, [], by simp, by simp⟩ h
  obtain ⟨⟨ht, hlen, hnew⟩, hc⟩ := hinv
  refine ⟨ht, by simpa using hc, hlen, hnew, fun hsb => ?_⟩
  rw [whileLoop_of_not_cond _ _ fuel s (by simpa using hsb)] at h
  exact (Option.some.inj h).symm

/-- The binary64 values of the three rates lie between 0.9 and 2.5. -/
theorem binary64_rate_bounds :
    ((9 / 10 : ℚ) ≤ Binary64.fl (5 / 2) ∧ Binary64.fl (5 / 2) ≤ 5 / 2) ∧
    ((9 / 10 : ℚ) ≤ Binary64.fl (19 / 10) ∧ Binary64.fl (19 / 10) ≤ 5 / 2) ∧
    ((9 / 10 : ℚ) ≤ Binary64.fl (9 / 10) ∧ Binary64.fl (9 / 10) ≤ 5 / 2) := by
  decide!

/-- A larger budget does not change the result of the three binary64 loops. -/
theorem binary64_runProjection_mono {fuel fuel' : ℕ} (hle : fuel ≤ fuel') {W wk tdee : ℚ}
    {t : Binary64.ProjState} (h : Binary64.runProjection fuel W wk tdee = some t) :
    Binary64.runProjection fuel' W wk tdee = some t := by
  unfold Binary64.runProjection at h ⊢
  obtain ⟨s1, hs1, h⟩ := Option.bind_eq_some.1 h
  obtain ⟨s2, hs2, hs3⟩ := Option.bind_eq_some.1 h
  unfold Binary64.phaseLoop at hs1 hs2 hs3 ⊢
  rw [whileLoop_mono _ _ hle hs1]
  simp only [Option.bind_some, Option.some_bind]
  rw [whileLoop_mono _ _ hle hs2]
  simp only [Option.bind_some, Option.some_bind]
  exact whileLoop_mono _ _ hle hs3

/-- Two finished runs of the binary64 loops from the same start push the same
points, whatever their budgets. -/
theorem binary64_allProjections_det {f₁ f₂ : ℕ} {W wk tdee : ℚ}
    {a b : List ProjectionPoint} (ha : Binary64.allProjections f₁ W wk tdee = some a)
    (hb : Binary64.allProjections f₂ W wk tdee = some b) : a = b := by
  unfold Binary64.allProjections at ha hb
  obtain ⟨ta, hta, rfl⟩ := Option.map_eq_some'.1 ha
  obtain ⟨tb, htb, rfl⟩ := Option.map_eq_some'.1 hb
  have h1 := binary64_runProjection_mono (le_max_left f₁ f₂) hta
  have h2 := binary64_runProjection_mono (le_max_right f₁ f₂) htb
  rw [h1] at h2
  rw [Option.some.inj h2]

/-- The binary64 loops from 213 lb with a budget of 50 iterations per loop: 43
points, 6 of Phase 1, 15 of Phase 2 and 22 of Phase 3; from 150.9 lb: 1 point. -/
theorem binary64_projection_eval :
    (Binary64.allProjections 50 213 (Binary64.fl (133 / 10)) 2450).map
        (fun pts => (pts.length, pts.countP (fun p => decide (p.phase = 1)),
          pts.countP (fun p => decide (p.phase = 2)),
          pts.countP (fun p => decide (p.phase = 3)))) = some (43, 6, 15, 22) ∧
    (Binary64.allProjections 50 (Binary64.fl (1509 / 10)) 0 2000).map List.length = some 1 := by
  decide!

/-! ## Termination and the number of points -/

/-- C5, as stated, fails.  From the starting weight `1e17` the subtraction
`1e17 - 2.5` gives `1e17` again, so the Phase 1 loop never stops: no iteration
budget yields a projection.  From the starting weight `150.9` the loops stop
after 1 point, while the stated count `n1 + n2 + n3` is `0 + 0 + 2`, whether the
quotient `(W - 150) / 0.9` is taken exactly or in binary64 arithmetic. -/
theorem binary64_projection_not_as_stated :
    (Binary64.fl ((100000000000000000 : ℚ) - Binary64.fl (5 / 2)) = 100000000000000000 ∧
      ∀ fuel : ℕ, Binary64.allProjections fuel 100000000000000000 0 2000 = none) ∧
    ((∀ (fuel : ℕ) (pts : List ProjectionPoint),
        Binary64.allProjections fuel (Binary64.fl (1509 / 10)) 0 2000 = some pts →
        pts.length = 1) ∧
      max 0 ⌈(Binary64.fl (1509 / 10) - 200) / (5 / 2)⌉ = 0 ∧
      max 0 ⌈(Binary64.fl (1509 / 10) - 5 / 2 * ((0 : ℤ) : ℚ) - 170) / (19 / 10)⌉ = 0 ∧
      max 0 ⌈(Binary64.fl (1509 / 10) - 5 / 2 * ((0 : ℤ) : ℚ) - 19 / 10 * ((0 : ℤ) : ℚ) - 150) /
        (9 / 10)⌉ = 2 ∧
      mathCeil (Binary64.fl (Binary64.fl (Binary64.fl (1509 / 10) - 150) /
        Binary64.fl (9 / 10))) = 2) := by
  have hfix : Binary64.fl ((100000000000000000 : ℚ) - Binary64.fl (5 / 2)) =
      100000000000000000 := by decide!
  refine ⟨⟨hfix, fun fuel => ?_⟩, ⟨fun fuel pts h => ?_, by decide!, by decide!, by decide!,
    by decide!⟩⟩
  · have hnone : Binary64.phaseLoop 100000000000000000 2000 200 (Binary64.fl (5 / 2)) 1 fuel
        { weight := 100000000000000000, weekNumber := (mathCeil 0 : ℚ), allProjections := [] } =
        none := by
      unfold Binary64.phaseLoop
      refine whileLoop_none _ _ (fun u => u.weight = 100000000000000000) ?_ ?_ fuel _ rfl
      · intro u hu
        simp only [hu]
        decide!
      · intro u hu
        show Binary64.fl (u.weight - Binary64.fl (5 / 2)) = 100000000000000000
        rw [hu]
        exact hfix
    simp only [Binary64.allProjections, Binary64.runProjection, hnone, Option.none_bind,
      Option.map_none', Option.bind_none]
  · have h50 := binary64_projection_eval.2
    cases hc : Binary64.allProjections 50 (Binary64.fl (1509 / 10)) 0 2000 with
    | none => rw [hc] at h50; simp at h50
    | some q =>
      rw [hc] at h50
      simp only [Option.map_some', Option.some.injEq] at h50
      rw [binary64_allProjections_det h hc]
      exact h50

/-- C5, amended: for every starting weight `W <= 2^53` the three projection
loops terminate and emit at most `max(0, ceil(2.5 * (W - 150)))` points; a
phase whose bound the starting weight is already at or below contributes zero
points (`W <= 200`: no Phase 1 point; `W <= 170`: Phase 3 points only), and
`W <= 150` gives an empty projection. -/
theorem binary64_projection_terminates (W wk tdee : ℚ) (hW : W ≤ 2 ^ 53) :
    (∃ (fuel : ℕ) (pts : List ProjectionPoint),
      Binary64.allProjections fuel W wk tdee = some pts) ∧
    ∀ (fuel : ℕ) (pts : List ProjectionPoint),
      Binary64.allProjections fuel W wk tdee = some pts →
      pts.length ≤ ⌈(W - 150) * (5 / 2)⌉.toNat ∧
      (W ≤ 200 → ∀ p ∈ pts, p.phase ≠ 1) ∧
      (W ≤ 170 → ∀ p ∈ pts, p.phase = 3) ∧
      (W ≤ 150 → pts = []) := by
  obtain ⟨⟨a1, b1⟩, ⟨a2, b2⟩, ⟨a3, b3⟩⟩ := binary64_rate_bounds
  constructor
  · obtain ⟨s1, h1⟩ := binary64_phaseLoop_terminates W tdee 200 _ 1 (by norm_num) a1 b1
      { weight := W, weekNumber := (mathCeil wk : ℚ), allProjections := [] } hW
      ⌈(W - 150) * (5 / 2)⌉.toNat le_rfl
    obtain ⟨hw1, -, hlen1, -, -⟩ := binary64_phaseLoop_spec W tdee 200 _ 1 (by norm_num) a1 b1
      _ _ _ hW h1
    simp only [List.length_nil, zero_add] at hlen1
    obtain ⟨s2, h2⟩ := binary64_phaseLoop_terminates W tdee 170 _ 2 (by norm_num) a2 b2
      s1 hw1 ⌈(W - 150) * (5 / 2)⌉.toNat (by omega)
    obtain ⟨hw2, -, hlen2, -, -⟩ := binary64_phaseLoop_spec W tdee 170 _ 2 (by norm_num) a2 b2
      _ _ _ hw1 h2
    obtain ⟨s3, h3⟩ := binary64_phaseLoop_terminates W tdee 150 _ 3 (by norm_num) a3 b3
      s2 hw2 ⌈(W - 150) * (5 / 2)⌉.toNat (by omega)
    refine ⟨⌈(W - 150) * (5 / 2)⌉.toNat, s3.allProjections, ?_⟩
    simp only [Binary64.allProjections, Binary64.runProjection, h1, h2, h3, Option.some_bind,
      Option.map_some']
  · intro fuel pts h
    unfold Binary64.allProjections at h
    obtain ⟨t, ht, rfl⟩ := Option.map_eq_some'.1 h
    unfold Binary64.runProjection at ht
    obtain ⟨s1, h1, ht⟩ := Option.bind_eq_some.1 ht
    obtain ⟨s2, h2, h3⟩ := Option.bind_eq_some.1 ht
    obtain ⟨hw1, hb1, hlen1, ⟨n1, hn1, hp1⟩, hz1⟩ :=
      binary64_phaseLoop_spec W tdee 200 _ 1 (by norm_num) a1 b1 _ _ _ hW h1
    obtain ⟨hw2, hb2, hlen2, ⟨n2, hn2, hp2⟩, hz2⟩ :=
      binary64_phaseLoop_spec W tdee 170 _ 2 (by norm_num) a2 b2 _ _ _ hw1 h2
    obtain ⟨hw3, hb3, hlen3, ⟨n3, hn3, hp3⟩, hz3⟩ :=
      binary64_phaseLoop_spec W tdee 150 _ 3 (by norm_num) a3 b3 _ _ _ hw2 h3
    simp only [List.length_nil, zero_add, List.nil_append] at hlen1 hn1
    refine ⟨by omega, fun hle => ?_, fun hle => ?_, fun hle => ?_⟩
    · have e1 := hz1 hle
      subst e1
      rw [hn3, hn2]
      intro p hp
      simp only [List.nil_append, List.mem_append] at hp
      rcases hp with hp | hp
      · rw [hp2 p hp]
        decide
      · rw [hp3 p hp]
        decide
    · have e1 := hz1 (by linarith)
      subst e1
      have e2 := hz2 hle
      subst e2
      rw [hn3]
      intro p hp
      simp only [List.nil_append] at hp
      exact hp3 p hp
    · have e1 := hz1 (by linarith)
      subst e1
      have e2 := hz2 (by linarith)
      subst e2
      have e3 := hz3 hle
      subst e3
      rfl

/-- C5, amended, at the built-in starting weight 213: the loops terminate and
push `6 + 15 + 22 = 43` points. -/
theorem binary64_projection_terminates_213 :
    (213 : ℚ) ≤ 2 ^ 53 ∧
    ((∃ (fuel : ℕ) (pts : List ProjectionPoint),
        Binary64.allProjections fuel 213 (Binary64.fl (133 / 10)) 2450 = some pts) ∧
      ∀ (fuel : ℕ) (pts : List ProjectionPoint),
        Binary64.allProjections fuel 213 (Binary64.fl (133 / 10)) 2450 = some pts →
        pts.length ≤ ⌈((213 : ℚ) - 150) * (5 / 2)⌉.toNat ∧
        ((213 : ℚ) ≤ 200 → ∀ p ∈ pts, p.phase ≠ 1) ∧
        ((213 : ℚ) ≤ 170 → ∀ p ∈ pts, p.phase = 3) ∧
        ((213 : ℚ) ≤ 150 → pts = [])) ∧
    ∀ (fuel : ℕ) (pts : List ProjectionPoint),
      Binary64.allProjections fuel 213 (Binary64.fl (133 / 10)) 2450 = some pts →
      pts.length = 6 + 15 + 22 ∧
      pts.countP (fun p => decide (p.phase = 1)) = 6 ∧
      pts.countP (fun p => decide (p.phase = 2)) = 15 ∧
      pts.countP (fun p => decide (p.phase = 3)) = 22 := by
  refine ⟨by norm_num,
    binary64_projection_terminates 213 (Binary64.fl (133 / 10)) 2450 (by norm_num), ?_⟩
  intro fuel pts h
  have h50 := binary64_projection_eval.1
  cases hc : Binary64.allProjections 50 213 (Binary64.fl (133 / 10)) 2450 with
  | none => rw [hc] at h50; simp at h50
  | some q =>
    rw [hc] at h50
    simp only [Option.map_some', Option.some.injEq, Prod.mk.injEq] at h50
    rw [binary64_allProjections_det h hc]
    exact h50

end DatAss
